import Mathlib

/-!
Verification of the 2D molecule-layout core of `chempy/ext/molecule_draw.py`.

The working molecular graph is embedded shallowly: atoms are identified by
natural-number ids (standing for Python object identity), the bond table is an
association list mirroring the insertion-ordered Python dictionaries, so list
order models the source's fixed dict-iteration order.  Pure integer/list code
is translated to computable definitions; the coordinate geometry (which the
source computes with floating-point `math.cos`/`math.sin`/`numpy`) is
translated to exact real arithmetic over `ℝ × ℝ`.
-/

namespace MoleculeDraw

/-- Bond orders of `chempy`: single, double, triple, benzene (aromatic). -/
inductive BondOrder where
  | single
  | double
  | triple
  | benzene
deriving DecidableEq, Repr

/-- Atom identity (Python object identity of an `Atom`). -/
abbrev AtomId := Nat

/-- The bond table `bonds : dict atom -> dict atom -> Bond` as an association
list of association lists; list order models dict iteration order. -/
abbrev Adj := List (AtomId × List (AtomId × BondOrder))

/-- The inner dictionary `bonds[a]` (`[]` when `a` is not a key, which under
well-formedness does not happen where the source indexes the table). -/
def adjNbrs (bonds : Adj) (a : AtomId) : List (AtomId × BondOrder) :=
  ((bonds.find? (fun p => p.1 = a)).map Prod.snd).getD []

/-- The neighbours of `a`, in dict-iteration order (`for atom2 in bonds[a]`). -/
def nbrs (bonds : Adj) (a : AtomId) : List AtomId :=
  (adjNbrs bonds a).map Prod.fst

/-- `len(bonds[a])`: the number of bonds at `a`. -/
def degree (bonds : Adj) (a : AtomId) : Nat :=
  (adjNbrs bonds a).length

/-- `bonds[a][b]` (defaulting to a single bond where the source would raise
`KeyError`; well-formedness rules that out at every use site). -/
def bondOrder (bonds : Adj) (a b : AtomId) : BondOrder :=
  (((adjNbrs bonds a).find? (fun p => p.1 = b)).map Prod.snd).getD BondOrder.single

/-- `b` is bonded to `a`. -/
def adjacent (bonds : Adj) (a b : AtomId) : Prop := b ∈ nbrs bonds a

instance (bonds : Adj) (a b : AtomId) : Decidable (adjacent bonds a b) := by
  unfold adjacent; infer_instance

/-- The working molecular graph: the atom list and the symmetric bond table. -/
structure ChemGraph where
  atoms : List AtomId
  bonds : Adj

/-- Well-formedness of a working graph, the data-model invariants of the spec:
distinct atoms, the bond table keyed exactly by the atom list, duplicate-free
neighbour dictionaries, closed and irreflexive symmetric adjacency with equal
bond orders in both directions. -/
def WF (g : ChemGraph) : Prop :=
  g.atoms.Nodup ∧
  g.bonds.map Prod.fst = g.atoms ∧
  (∀ a ∈ g.atoms, (nbrs g.bonds a).Nodup) ∧
  (∀ a ∈ g.atoms, ∀ b ∈ nbrs g.bonds a, b ∈ g.atoms) ∧
  (∀ a ∈ g.atoms, a ∉ nbrs g.bonds a) ∧
  (∀ a ∈ g.atoms, ∀ b ∈ nbrs g.bonds a,
    a ∈ nbrs g.bonds b ∧ bondOrder g.bonds a b = bondOrder g.bonds b a)

instance (g : ChemGraph) : Decidable (WF g) := by
  unfold WF; infer_instance

/-! ## BackboneFinder (`findLongestPath`, `getBackbone`) -/

/-- One step of the source's first-longest selection: `lengths.index(max(lengths))`
keeps the earliest list attaining the maximum length, i.e. a left fold that
replaces the accumulator only on strictly greater length. -/
def best1 (acc p : List AtomId) : List AtomId :=
  if acc.length < p.length then p else acc

/-- `paths[lengths.index(max(lengths))]`: the first element of maximal length. -/
def firstMax : List (List AtomId) → List AtomId
  | [] => []
  | p :: rest => rest.foldl best1 p

/-- `findLongestPath` of the source, with explicit fuel standing for the
(finite) recursion the source performs on a finite graph: from the path prefix
`atoms0`, recurse into each unvisited neighbour of the last atom in
dict-iteration order and return the first longest path found. -/
def findLongestPath (g : ChemGraph) : Nat → List AtomId → List AtomId
  | 0, atoms0 => atoms0
  | fuel + 1, atoms0 =>
    let atom1 := atoms0.getLastD 0
    let rest := ((nbrs g.bonds atom1).filter (fun a2 => a2 ∉ atoms0)).map
      (fun a2 => findLongestPath g fuel (atoms0 ++ [a2]))
    firstMax (atoms0 :: rest)

/-- Specification-side DFS enumeration of every simple extension of the prefix
`p` (the prefix itself included), in exactly the discovery order of
`findLongestPath`. -/
def allPaths (g : ChemGraph) : Nat → List AtomId → List (List AtomId)
  | 0, p => [p]
  | fuel + 1, p =>
    p :: ((nbrs g.bonds (p.getLastD 0)).filter (fun a2 => a2 ∉ p)).flatMap
      (fun a2 => allPaths g fuel (p ++ [a2]))

/-- The terminal atoms: those with exactly one explicit bond. -/
def terminalAtoms (g : ChemGraph) : List AtomId :=
  g.atoms.filter (fun a => degree g.bonds a = 1)

/-- `getBackbone`, acyclic branch, on the hydrogen-stripped working graph
(the copy/strip step happens outside this graph in the source): early return
for one or two atoms, else the first strictly longest of the per-terminal
longest paths (`if len(path) > len(backbone)`). -/
def getBackbone (g : ChemGraph) : List AtomId :=
  if g.atoms.length = 1 ∨ g.atoms.length = 2 then g.atoms
  else ((terminalAtoms g).map
    (fun t => findLongestPath g g.atoms.length [t])).foldl best1 []

/-- The full discovery sequence of backbone candidate paths: for each terminal
atom in atom-list order, every simple path from it in DFS order. -/
def backbonePathsDFS (g : ChemGraph) : List (List AtomId) :=
  (terminalAtoms g).flatMap (fun t => allPaths g g.atoms.length [t])

/-- `p` is a simple path of the working graph: nonempty, consecutive atoms
bonded, no repeated atom, all atoms of the graph. -/
def IsSimplePath (g : ChemGraph) (p : List AtomId) : Prop :=
  p ≠ [] ∧ p.Chain' (adjacent g.bonds) ∧ p.Nodup ∧ ∀ a ∈ p, a ∈ g.atoms

/-- `p` is a terminal-to-terminal simple path: a simple path of at least two
atoms whose two ends have degree 1. -/
def IsTTPath (g : ChemGraph) (p : List AtomId) : Prop :=
  IsSimplePath g p ∧ 2 ≤ p.length ∧
    degree g.bonds (p.headD 0) = 1 ∧ degree g.bonds (p.getLastD 0) = 1

/-- A simple cycle: a simple path of at least three atoms whose last atom is
bonded back to its first. -/
def IsCycle (g : ChemGraph) (p : List AtomId) : Prop :=
  IsSimplePath g p ∧ 3 ≤ p.length ∧ adjacent g.bonds (p.getLastD 0) (p.headD 0)

/-- The graph has no simple cycle. -/
def Acyclic (g : ChemGraph) : Prop := ∀ p, ¬ IsCycle g p

/-- Executable acyclicity check: scan the finite enumeration of all simple
paths for one that closes into a cycle. -/
def cycleFree (g : ChemGraph) : Bool :=
  (g.atoms.flatMap (fun a => allPaths g g.atoms.length [a])).all
    (fun p => decide (p.length < 3 ∨ ¬ adjacent g.bonds (p.getLastD 0) (p.headD 0)))

/-- Modelled from the spec: `ChemGraph.isCyclic` of `chempy.molecule` is not
under `src/`; the spec says the working graph "contains a ring".  Decided by
the executable simple-cycle scan. -/
def isCyclic (g : ChemGraph) : Bool := decide (cycleFree g = false)

/-- The two outcomes of the source's `getBackbone` entry: the cyclic branch
prints the cycles' atom indices and calls `quit()`, terminating the host
process; the acyclic branch returns the backbone. -/
inductive BackboneResult where
  | processAbort
  | backbone (path : List AtomId)
deriving DecidableEq, Repr

/-- The whole `getBackbone` of the source including its cyclic branch: on a
cyclic working graph it does not return a value to the caller at all — it
prints cycle indices and calls `quit()` (a process abort), modelled as
`BackboneResult.processAbort`. -/
def getBackboneRun (g : ChemGraph) : BackboneResult :=
  if isCyclic g then BackboneResult.processAbort
  else BackboneResult.backbone (getBackbone g)

/-! ## Atom attributes and the label annotation stage of `drawMolecule` -/

/-- The atom attributes the layout pass reads. -/
structure AtomData where
  symbol : String
  radicalElectrons : Nat
  charge : Int
  label : String
  isH : Bool
deriving DecidableEq, Repr

instance : Inhabited AtomData := ⟨⟨"", 0, 0, "", false⟩⟩

/-- Attribute lookup by atom identity. -/
def attrOf (attrs : List (AtomId × AtomData)) (a : AtomId) : AtomData :=
  ((attrs.find? (fun p => p.1 = a)).map Prod.snd).getD default

/-- The label the carbon-suppression stage of `drawMolecule` assigns to one
atom: start from the chemical symbol; a `"C"` is cleared when it has more than
one bond or carries neither radical electrons nor charge. -/
def labelFor (attrs : List (AtomId × AtomData)) (bonds : Adj) (a : AtomId) : String :=
  let d := attrOf attrs a
  if d.symbol = "C" ∧ (1 < degree bonds a ∨ (d.radicalElectrons = 0 ∧ d.charge = 0))
  then "" else d.symbol

/-- The symbol list after the carbon-suppression stage (`drawMolecule`,
before the double-bond propagation and the implicit-hydrogen suffixes). -/
def initialSymbols (atoms : List AtomId) (attrs : List (AtomId × AtomData))
    (bonds : Adj) : List String :=
  atoms.map (labelFor attrs bonds)

/-! ## The aliased bond-table copy of `drawMolecule` (frame effect)

`drawMolecule` does `bonds = chemGraph.bonds.copy()`: a SHALLOW dict copy, so
the copy's inner neighbour dictionaries are the very objects of the caller's
graph.  We model that POINTER structure explicitly: `top` maps each atom to
the id of an inner dictionary held in a shared `store`. -/

structure BondDicts where
  top : List (AtomId × Nat)
  store : List (Nat × List (AtomId × BondOrder))
deriving DecidableEq, Repr

/-- Dereference an inner-dictionary id in the shared store. -/
def storeGet (store : List (Nat × List (AtomId × BondOrder))) (r : Nat) :
    List (AtomId × BondOrder) :=
  ((store.find? (fun p => p.1 = r)).map Prod.snd).getD []

/-- The adjacency a holder of `top` observes through the shared store. -/
def viewAdj (top : List (AtomId × Nat))
    (store : List (Nat × List (AtomId × BondOrder))) (a : AtomId) :
    List (AtomId × BondOrder) :=
  storeGet store (((top.find? (fun p => p.1 = a)).map Prod.snd).getD 0)

/-- `atomsToRemove`: the unlabeled hydrogens `drawMolecule` strips. -/
def removedAtoms (atoms : List (AtomId × AtomData)) : List AtomId :=
  (atoms.filter (fun p => p.2.isH ∧ p.2.label = "")).map Prod.fst

/-- The hydrogen-stripping of `drawMolecule` on the shallow-copied bond table
(intended semantics of its loop): the copy's `top` drops the removed atoms,
and the kept atoms' INNER dictionaries — shared with the caller — have the
removed atoms deleted, mutating the shared store. -/
def stripBondTable (atoms : List (AtomId × AtomData)) (d : BondDicts) : BondDicts :=
  let removed := removedAtoms atoms
  let top2 := d.top.filter (fun p => p.1 ∉ removed)
  let keptRefs := top2.map Prod.snd
  let store2 := d.store.map (fun q =>
    if q.1 ∈ keptRefs then (q.1, q.2.filter (fun e => e.1 ∉ removed)) else q)
  { top := top2, store := store2 }

/-! ## Lemmas on the first-longest selection -/

theorem length_le_best1_left (acc p : List AtomId) :
    acc.length ≤ (best1 acc p).length := by
  unfold best1; split <;> omega

theorem length_le_best1_right (acc p : List AtomId) :
    p.length ≤ (best1 acc p).length := by
  unfold best1; split <;> omega

theorem best1_eq_or (acc p : List AtomId) :
    best1 acc p = acc ∨ best1 acc p = p := by
  unfold best1; split
  · exact Or.inr rfl
  · exact Or.inl rfl

theorem best1_assoc (a b c : List AtomId) :
    best1 (best1 a b) c = best1 a (best1 b c) := by
  unfold best1
  split_ifs <;> first | rfl | omega

theorem foldl_best1_init_le (l : List (List AtomId)) (acc : List AtomId) :
    acc.length ≤ (l.foldl best1 acc).length := by
  induction l generalizing acc with
  | nil => simp
  | cons p t ih => exact le_trans (length_le_best1_left acc p) (ih (best1 acc p))

theorem foldl_best1_mem_le (l : List (List AtomId)) (acc q : List AtomId)
    (hq : q ∈ l) : q.length ≤ (l.foldl best1 acc).length := by
  induction l generalizing acc with
  | nil => cases hq
  | cons p t ih =>
    rcases List.mem_cons.mp hq with h | h
    · subst h
      exact le_trans (length_le_best1_right acc q) (foldl_best1_init_le t _)
    · exact ih _ h

theorem foldl_best1_mem_or (l : List (List AtomId)) (acc : List AtomId) :
    l.foldl best1 acc = acc ∨ l.foldl best1 acc ∈ l := by
  induction l generalizing acc with
  | nil => exact Or.inl rfl
  | cons p t ih =>
    rw [List.foldl_cons]
    rcases ih (best1 acc p) with h | h
    · rw [h]
      rcases best1_eq_or acc p with h2 | h2
      · exact Or.inl h2
      · exact Or.inr (by rw [h2]; exact List.mem_cons_self p t)
    · exact Or.inr (List.mem_cons_of_mem p h)

theorem firstMax_cons (p : List AtomId) (t : List (List AtomId)) :
    firstMax (p :: t) = t.foldl best1 p := rfl

theorem firstMax_mem (l : List (List AtomId)) (h : l ≠ []) : firstMax l ∈ l := by
  cases l with
  | nil => exact absurd rfl h
  | cons p t =>
    rw [firstMax_cons]
    rcases foldl_best1_mem_or t p with h2 | h2
    · rw [h2]; exact List.mem_cons_self p t
    · exact List.mem_cons_of_mem p h2

theorem length_le_firstMax (l : List (List AtomId)) (q : List AtomId)
    (hq : q ∈ l) : q.length ≤ (firstMax l).length := by
  cases l with
  | nil => cases hq
  | cons p t =>
    rw [firstMax_cons]
    rcases List.mem_cons.mp hq with h | h
    · exact h ▸ foldl_best1_init_le t p
    · exact foldl_best1_mem_le t p q h

theorem foldl_best1_cons (t : List (List AtomId)) (acc p : List AtomId) :
    t.foldl best1 (best1 acc p) = best1 acc (t.foldl best1 p) := by
  induction t generalizing acc p with
  | nil => rfl
  | cons c t ih => simpa [best1_assoc] using ih acc (best1 p c)

theorem foldl_best1_eq_firstMax (l : List (List AtomId)) (acc : List AtomId)
    (h : l ≠ []) : l.foldl best1 acc = best1 acc (firstMax l) := by
  cases l with
  | nil => exact absurd rfl h
  | cons p t => exact foldl_best1_cons t acc p

theorem foldl_best1_flatMap {α : Type} (xs : List α)
    (f : α → List (List AtomId)) (acc : List AtomId)
    (hne : ∀ x ∈ xs, f x ≠ []) :
    (xs.flatMap f).foldl best1 acc =
      (xs.map (fun x => firstMax (f x))).foldl best1 acc := by
  induction xs generalizing acc with
  | nil => rfl
  | cons x xs ih =>
    rw [List.flatMap_cons, List.foldl_append, List.map_cons, List.foldl_cons]
    rw [foldl_best1_eq_firstMax (f x) acc (hne x (List.mem_cons_self x xs))]
    exact ih _ (fun y hy => hne y (List.mem_cons_of_mem x hy))

theorem foldl_best1_nil_init (l : List (List AtomId))
    (h : ∀ x ∈ l, x ≠ []) : l.foldl best1 [] = firstMax l := by
  cases l with
  | nil => rfl
  | cons p t =>
    have hp : best1 [] p = p := by
      have : p ≠ [] := h p (List.mem_cons_self p t)
      unfold best1
      have : 0 < p.length := List.length_pos.mpr this
      simp [this]
    unfold firstMax
    rw [List.foldl_cons, hp]

/-! ## The DFS enumeration versus `findLongestPath` -/

theorem allPaths_ne_nil (g : ChemGraph) (fuel : Nat) (p : List AtomId) :
    allPaths g fuel p ≠ [] := by
  cases fuel <;> simp [allPaths]

theorem self_mem_allPaths (g : ChemGraph) (fuel : Nat) (p : List AtomId) :
    p ∈ allPaths g fuel p := by
  cases fuel <;> simp [allPaths]

theorem findLongestPath_eq_firstMax (g : ChemGraph) (fuel : Nat)
    (p : List AtomId) :
    findLongestPath g fuel p = firstMax (allPaths g fuel p) := by
  induction fuel generalizing p with
  | zero => rfl
  | succ fuel ih =>
    simp only [findLongestPath, allPaths]
    rw [firstMax_cons, firstMax_cons]
    rw [foldl_best1_flatMap _ _ _ (fun x _ => allPaths_ne_nil g fuel _)]
    have hmap :
        ((nbrs g.bonds (p.getLastD 0)).filter (fun a2 => a2 ∉ p)).map
            (fun a2 => findLongestPath g fuel (p ++ [a2])) =
          ((nbrs g.bonds (p.getLastD 0)).filter (fun a2 => a2 ∉ p)).map
            (fun a2 => firstMax (allPaths g fuel (p ++ [a2]))) :=
      List.map_congr_left (fun a2 _ => ih (p ++ [a2]))
    rw [hmap]

theorem mem_allPaths_startsWith (g : ChemGraph) (fuel : Nat)
    (p q : List AtomId) (hq : q ∈ allPaths g fuel p) : p <+: q := by
  induction fuel generalizing p with
  | zero =>
    simp only [allPaths, List.mem_singleton] at hq
    exact hq ▸ List.prefix_refl q
  | succ fuel ih =>
    simp only [allPaths, List.mem_cons, List.mem_flatMap] at hq
    rcases hq with h | ⟨a2, _, h⟩
    · exact h ▸ List.prefix_refl q
    · exact List.IsPrefix.trans (List.prefix_append p [a2]) (ih _ h)

theorem mem_allPaths_ne_nil (g : ChemGraph) (fuel : Nat)
    (p q : List AtomId) (hp : p ≠ []) (hq : q ∈ allPaths g fuel p) : q ≠ [] := by
  have := mem_allPaths_startsWith g fuel p q hq
  intro h
  subst h
  exact hp (List.prefix_nil.mp this)

theorem getLast?_eq_some_getLastD (p : List AtomId) (hp : p ≠ []) :
    p.getLast? = some (p.getLastD 0) := by
  rw [List.getLastD_eq_getLast? 0 p, List.getLast?_eq_getLast p hp]
  rfl

theorem getLastD_mem (p : List AtomId) (d : AtomId) (hp : p ≠ []) :
    p.getLastD d ∈ p := by
  rw [List.getLastD_eq_getLast? d p, List.getLast?_eq_getLast p hp]
  exact List.getLast_mem hp

theorem headD_mem (p : List AtomId) (d : AtomId) (hp : p ≠ []) :
    p.headD d ∈ p := by
  cases p with
  | nil => exact absurd rfl hp
  | cons a t => exact List.mem_cons_self a t

theorem headD_of_startsWith (p q : List AtomId) (d : AtomId) (hp : p ≠ [])
    (hpre : p <+: q) : q.headD d = p.headD d := by
  obtain ⟨ext, rfl⟩ := hpre
  cases p with
  | nil => exact absurd rfl hp
  | cons a t => rfl

theorem getLastD_concat (p : List AtomId) (a d : AtomId) :
    (p ++ [a]).getLastD d = a := by
  simp

theorem chain'_getLastD_adj {R : AtomId → AtomId → Prop} (p : List AtomId)
    (a : AtomId) (ext : List AtomId) (hp : p ≠ [])
    (h : (p ++ a :: ext).Chain' R) : R (p.getLastD 0) a := by
  rcases List.chain'_append.mp h with ⟨_, _, hlink⟩
  exact hlink _ (by rw [getLast?_eq_some_getLastD p hp]; rfl) a rfl

/-- Extending a simple path by a fresh neighbour of its last atom keeps it a
simple path (using closure of adjacency under well-formedness). -/
theorem IsSimplePath.extend (g : ChemGraph) (p : List AtomId) (a : AtomId)
    (hwf : WF g) (hp : IsSimplePath g p)
    (hadj : a ∈ nbrs g.bonds (p.getLastD 0)) (hnot : a ∉ p) :
    IsSimplePath g (p ++ [a]) := by
  obtain ⟨hne, hchain, hnodup, hsub⟩ := hp
  refine ⟨by simp, ?_, ?_, ?_⟩
  · rw [List.chain'_append]
    refine ⟨hchain, List.chain'_singleton a, ?_⟩
    intro x hx y hy
    rw [getLast?_eq_some_getLastD p hne] at hx
    cases hx
    cases hy
    exact hadj
  · rw [List.nodup_append]
    exact ⟨hnodup, List.nodup_singleton a, by simpa using hnot⟩
  · intro x hx
    rcases List.mem_append.mp hx with h | h
    · exact hsub x h
    · rcases List.mem_singleton.mp h with rfl
      exact hwf.2.2.2.1 _ (hsub _ (getLastD_mem p 0 hne)) _ hadj

/-- Soundness of the enumeration: every entry extends a simple path to a
simple path. -/
theorem mem_allPaths_simple (g : ChemGraph) (hwf : WF g) (fuel : Nat)
    (p q : List AtomId) (hp : IsSimplePath g p)
    (hq : q ∈ allPaths g fuel p) : IsSimplePath g q := by
  induction fuel generalizing p with
  | zero =>
    simp only [allPaths, List.mem_singleton] at hq
    exact hq ▸ hp
  | succ fuel ih =>
    simp only [allPaths, List.mem_cons, List.mem_flatMap, List.mem_filter,
      decide_eq_true_eq] at hq
    rcases hq with rfl | ⟨a2, ⟨ha2, hnot⟩, h⟩
    · exact hp
    · exact ih (p ++ [a2]) (IsSimplePath.extend g p a2 hwf hp ha2 hnot) h

/-- Completeness of the enumeration: every simple path `q` extending a
nonempty prefix `p` appears, given fuel for the missing atoms. -/
theorem mem_allPaths_of_simple (g : ChemGraph) (fuel : Nat)
    (p q : List AtomId) (hp : p ≠ []) (hq : IsSimplePath g q)
    (hpre : p <+: q) (hfuel : q.length ≤ fuel + p.length) :
    q ∈ allPaths g fuel p := by
  induction fuel generalizing p with
  | zero =>
    have hlen : p.length = q.length :=
      le_antisymm (List.IsPrefix.length_le hpre) (by omega)
    have : p = q := List.IsPrefix.eq_of_length hpre hlen
    simp [allPaths, this]
  | succ fuel ih =>
    obtain ⟨ext, rfl⟩ := hpre
    cases ext with
    | nil => simp [allPaths]
    | cons a ext =>
      simp only [allPaths, List.mem_cons, List.mem_flatMap, List.mem_filter,
        decide_eq_true_eq]
      refine Or.inr ⟨a, ⟨?_, ?_⟩, ?_⟩
      · exact chain'_getLastD_adj p a ext hp hq.2.1
      · intro hmem
        have := hq.2.2.1
        rw [List.nodup_append] at this
        exact this.2.2 hmem (List.mem_cons_self a ext)
      · refine ih (p ++ [a]) (by simp) ⟨ext, by simp⟩ ?_
        simp only [List.length_append, List.length_cons, List.length_singleton]
        simp only [List.length_append, List.length_cons] at hfuel
        omega

/-! ## Maximality of the chosen backbone -/

theorem isSimplePath_singleton (g : ChemGraph) (t : AtomId) (ht : t ∈ g.atoms) :
    IsSimplePath g [t] :=
  ⟨by simp, by simp, by simp, by simpa⟩

theorem length_le_atoms (g : ChemGraph) (p : List AtomId) (hnodup : p.Nodup)
    (hsub : ∀ a ∈ p, a ∈ g.atoms) : p.length ≤ g.atoms.length :=
  (hnodup.subperm (fun a ha => hsub a ha)).length_le

theorem mem_backbonePathsDFS (g : ChemGraph) (q : List AtomId) :
    q ∈ backbonePathsDFS g ↔
      ∃ t ∈ terminalAtoms g, q ∈ allPaths g g.atoms.length [t] := by
  unfold backbonePathsDFS
  exact List.mem_flatMap

theorem getBackbone_eq_firstMax (g : ChemGraph)
    (h : ¬(g.atoms.length = 1 ∨ g.atoms.length = 2)) :
    getBackbone g = firstMax (backbonePathsDFS g) := by
  unfold getBackbone backbonePathsDFS
  rw [if_neg h]
  rw [← foldl_best1_nil_init _ (fun q hq => by
    rcases List.mem_flatMap.mp hq with ⟨t, _, hmem⟩
    exact mem_allPaths_ne_nil g _ _ q (by simp) hmem)]
  rw [foldl_best1_flatMap _ _ _ (fun t _ => allPaths_ne_nil g _ _)]
  have hmap : (terminalAtoms g).map
        (fun t => findLongestPath g g.atoms.length [t]) =
      (terminalAtoms g).map
        (fun t => firstMax (allPaths g g.atoms.length [t])) :=
    List.map_congr_left (fun t _ => findLongestPath_eq_firstMax g _ [t])
  rw [hmap]

/-- The first-longest path over a family of DFS enumerations from single atoms
cannot be extended: every neighbour of its last atom already lies on it. -/
theorem firstMax_flatMap_not_extendable (g : ChemGraph) (hwf : WF g)
    (starts : List AtomId) (hs : ∀ t ∈ starts, t ∈ g.atoms)
    (hne : starts ≠ []) (a : AtomId)
    (ha : a ∈ nbrs g.bonds
      ((firstMax (starts.flatMap
        (fun t => allPaths g g.atoms.length [t]))).getLastD 0)) :
    a ∈ firstMax (starts.flatMap (fun t => allPaths g g.atoms.length [t])) := by
  set L := starts.flatMap (fun t => allPaths g g.atoms.length [t]) with hL
  have hLne : L ≠ [] := by
    rcases List.exists_mem_of_ne_nil starts hne with ⟨t, ht⟩
    intro h0
    have : [t] ∈ L :=
      List.mem_flatMap.mpr ⟨t, ht, self_mem_allPaths g _ [t]⟩
    rw [h0] at this
    cases this
  set bb := firstMax L with hbb
  rcases List.mem_flatMap.mp (hL ▸ firstMax_mem L hLne) with ⟨t, ht, hmem⟩
  have hbbs : IsSimplePath g bb :=
    mem_allPaths_simple g hwf _ [t] bb (isSimplePath_singleton g t (hs t ht)) hmem
  by_contra hnot
  have hext : IsSimplePath g (bb ++ [a]) :=
    IsSimplePath.extend g bb a hwf hbbs ha hnot
  have hpre : [t] <+: bb ++ [a] :=
    List.IsPrefix.trans (mem_allPaths_startsWith g _ [t] bb hmem)
      (List.prefix_append bb [a])
  have hlen : (bb ++ [a]).length ≤ g.atoms.length :=
    length_le_atoms g _ hext.2.2.1 hext.2.2.2
  have hmem2 : bb ++ [a] ∈ allPaths g g.atoms.length [t] :=
    mem_allPaths_of_simple g _ [t] (bb ++ [a]) (by simp) hext hpre
      (by simp only [List.length_singleton]; omega)
  have : (bb ++ [a]).length ≤ bb.length :=
    hbb ▸ length_le_firstMax L _ (List.mem_flatMap.mpr ⟨t, ht, hmem2⟩)
  simp at this

theorem headD_eq_get (p : List AtomId) (d : AtomId) (hp : p ≠ []) :
    p.headD d = p.get ⟨0, List.length_pos.mpr hp⟩ := by
  cases p with
  | nil => exact absurd rfl hp
  | cons a t => rfl

theorem getLastD_eq_get (p : List AtomId) (d : AtomId) (hp : p ≠ []) :
    p.getLastD d = p.get ⟨p.length - 1, by
      have := List.length_pos.mpr hp; omega⟩ := by
  rw [List.getLastD_eq_getLast? d p, List.getLast?_eq_getLast p hp,
    List.getLast_eq_get]
  rfl

/-- In a duplicate-free list of length at least two, every element has a
distinct companion. -/
theorem exists_other_mem (l : List AtomId) (x : AtomId) (hnodup : l.Nodup)
    (h2 : 2 ≤ l.length) (hx : x ∈ l) : ∃ y ∈ l, y ≠ x := by
  cases l with
  | nil => simp at h2
  | cons a t =>
    cases t with
    | nil => simp at h2
    | cons b t =>
      by_cases hax : a = x
      · subst hax
        refine ⟨b, by simp, ?_⟩
        intro hba
        rw [hba] at hnodup
        simp at hnodup
      · exact ⟨a, by simp, hax⟩

/-- In an acyclic well-formed graph, the last atom of a non-extendable simple
path of length at least two has degree 1. -/
theorem maximal_last_degree_one (g : ChemGraph) (hwf : WF g)
    (hacyc : Acyclic g) (p : List AtomId) (hp : IsSimplePath g p)
    (h2 : 2 ≤ p.length)
    (hmax : ∀ a ∈ nbrs g.bonds (p.getLastD 0), a ∈ p) :
    degree g.bonds (p.getLastD 0) = 1 := by
  have hne : p ≠ [] := hp.1
  have hlpos : 0 < p.length := List.length_pos.mpr hne
  set v := p.getLastD 0 with hv
  have hvget : v = p.get ⟨p.length - 1, by omega⟩ := getLastD_eq_get p 0 hne
  have hvmem : v ∈ p := getLastD_mem p 0 hne
  have hvatom : v ∈ g.atoms := hp.2.2.2 v hvmem
  -- the previous atom on the path is a neighbour of `v`
  have hprevlt : p.length - 2 < p.length - 1 := by omega
  set prev := p.get ⟨p.length - 2, by omega⟩ with hprev
  have hadjpv : adjacent g.bonds prev v := by
    have := List.chain'_iff_get.mp hp.2.1 (p.length - 2) (by omega)
    have harg : p.length - 2 + 1 = p.length - 1 := by omega
    rw [hvget]
    convert this using 3 <;> omega
  have hprevmem : prev ∈ p := by rw [hprev]; exact List.get_mem p _ _
  have hvprev : prev ∈ nbrs g.bonds v :=
    (hwf.2.2.2.2.2 prev (hp.2.2.2 prev hprevmem) v hadjpv).1
  have hdegpos : 1 ≤ degree g.bonds v := by
    have : nbrs g.bonds v ≠ [] := fun h0 => by rw [h0] at hvprev; cases hvprev
    have := List.length_pos.mpr this
    unfold degree
    unfold nbrs at this
    simpa using this
  -- suppose the degree were at least two
  by_contra hdeg
  have h2deg : 2 ≤ (nbrs g.bonds v).length := by
    unfold degree at hdeg hdegpos
    unfold nbrs at *
    simp only [List.length_map] at *
    omega
  obtain ⟨w, hwmem, hwprev⟩ :=
    exists_other_mem (nbrs g.bonds v) prev (hwf.2.2.1 v hvatom) h2deg hvprev
  have hwv : w ≠ v := by
    intro h
    exact hwf.2.2.2.2.1 v hvatom (h ▸ hwmem)
  have hwp : w ∈ p := hmax w hwmem
  obtain ⟨⟨i, hilt⟩, hiw⟩ := List.get_of_mem hwp
  subst hiw
  -- `w` sits strictly before the last two atoms of `p`
  have hine1 : i ≠ p.length - 1 := by
    intro h
    apply hwv
    rw [hvget]
    congr 1
    exact Fin.ext h
  have hine2 : i ≠ p.length - 2 := by
    intro h
    apply hwprev
    rw [hprev]
    congr 1
    exact Fin.ext h
  have hile : i < p.length - 2 := by omega
  -- the tail of `p` from `w` onward closes into a simple cycle through `v`
  set c := p.drop i with hc
  have hclen : c.length = p.length - i := List.length_drop i p
  have hcne : c ≠ [] := by
    intro h0
    rw [h0] at hclen
    simp at hclen
    omega
  have hchead : c.headD 0 = p.get ⟨i, hilt⟩ := by
    rw [headD_eq_get c 0 hcne]
    simp only [hc, List.get_eq_getElem, List.getElem_drop]
    simp
  have hclast : c.getLastD 0 = v := by
    rw [getLastD_eq_get c 0 hcne, hvget]
    simp only [hc, List.get_eq_getElem, List.getElem_drop]
    congr 1
    simp only [List.length_drop]
    omega
  have hcyc : IsCycle g c := by
    refine ⟨⟨hcne, hp.2.1.drop i, hp.2.2.1.sublist (List.drop_sublist i p), ?_⟩,
      ?_, ?_⟩
    · intro x hx
      exact hp.2.2.2 x ((List.drop_sublist i p).subset hx)
    · omega
    · rw [hchead, hclast]
      exact hwmem
  exact hacyc c hcyc

theorem singleton_headD_startsWith (q : List AtomId) (hq : q ≠ []) :
    [q.headD 0] <+: q := by
  cases q with
  | nil => exact absurd rfl hq
  | cons a t => exact ⟨t, rfl⟩

theorem nbrs_mem_atoms (g : ChemGraph) (hwf : WF g) (a b : AtomId)
    (ha : a ∈ g.atoms) (hb : b ∈ nbrs g.bonds a) : b ∈ g.atoms :=
  hwf.2.2.2.1 a ha b hb

theorem nbrs_ne_self (g : ChemGraph) (hwf : WF g) (a b : AtomId)
    (ha : a ∈ g.atoms) (hb : b ∈ nbrs g.bonds a) : b ≠ a := by
  intro h
  exact hwf.2.2.2.2.1 a ha (h ▸ hb)

/-- The two-atom path along one bond is a simple path. -/
theorem isSimplePath_pair (g : ChemGraph) (hwf : WF g) (a b : AtomId)
    (ha : a ∈ g.atoms) (hb : b ∈ nbrs g.bonds a) : IsSimplePath g [a, b] := by
  have hba : b ≠ a := nbrs_ne_self g hwf a b ha hb
  refine ⟨by simp, ?_, ?_, ?_⟩
  · simpa [List.chain'_cons] using hb
  · simp only [List.nodup_cons, List.mem_singleton, List.not_mem_nil,
      not_false_eq_true, and_true, List.nodup_nil]
    exact Ne.symm hba
  · intro x hx
    simp only [List.mem_cons, List.mem_singleton, List.not_mem_nil,
      or_false] at hx
    rcases hx with h | h
    · rw [h]; exact ha
    · rw [h]; exact nbrs_mem_atoms g hwf a b ha hb

/-- An acyclic well-formed graph with a bond has a terminal atom. -/
theorem terminalAtoms_ne_nil (g : ChemGraph) (hwf : WF g) (hacyc : Acyclic g)
    (hedge : ∃ a ∈ g.atoms, ∃ b, adjacent g.bonds a b) :
    terminalAtoms g ≠ [] := by
  obtain ⟨a, ha, b, hb⟩ := hedge
  set L := g.atoms.flatMap (fun t => allPaths g g.atoms.length [t]) with hL
  have hatoms : g.atoms ≠ [] := fun h0 => by rw [h0] at ha; cases ha
  have hLne : L ≠ [] := by
    intro h0
    have : [a] ∈ L := List.mem_flatMap.mpr ⟨a, ha, self_mem_allPaths g _ [a]⟩
    rw [h0] at this
    cases this
  set P := firstMax L with hP
  rcases List.mem_flatMap.mp (hL ▸ firstMax_mem L hLne) with ⟨t, ht, hmem⟩
  have hPs : IsSimplePath g P :=
    mem_allPaths_simple g hwf _ [t] P (isSimplePath_singleton g t ht) hmem
  have hpair : [a, b] ∈ L := by
    refine List.mem_flatMap.mpr ⟨a, ha, ?_⟩
    refine mem_allPaths_of_simple g _ [a] [a, b] (by simp)
      (isSimplePath_pair g hwf a b ha hb) ⟨[b], rfl⟩ ?_
    have : 1 ≤ g.atoms.length := List.length_pos.mpr hatoms
    simp only [List.length_cons, List.length_singleton, List.length_nil]
    omega
  have hP2 : 2 ≤ P.length := by
    have := length_le_firstMax L [a, b] hpair
    simpa using this
  have hmaxi : ∀ x ∈ nbrs g.bonds (P.getLastD 0), x ∈ P :=
    fun x hx => firstMax_flatMap_not_extendable g hwf g.atoms (fun _ h => h)
      hatoms x hx
  have hdeg : degree g.bonds (P.getLastD 0) = 1 :=
    maximal_last_degree_one g hwf hacyc P hPs hP2 hmaxi
  intro h0
  have : P.getLastD 0 ∈ terminalAtoms g := by
    unfold terminalAtoms
    refine List.mem_filter.mpr ⟨hPs.2.2.2 _ (getLastD_mem P 0 hPs.1), ?_⟩
    simpa using hdeg
  rw [h0] at this
  cases this

/-- Soundness of the executable acyclicity scan. -/
theorem acyclic_of_cycleFree (g : ChemGraph) (hwf : WF g)
    (h : cycleFree g = true) : Acyclic g := by
  intro c hcyc
  obtain ⟨⟨hcne, hchain, hnodup, hsub⟩, hlen, hadj⟩ := hcyc
  have hhead : c.headD 0 ∈ g.atoms := hsub _ (headD_mem c 0 hcne)
  have hmem : c ∈ allPaths g g.atoms.length [c.headD 0] := by
    refine mem_allPaths_of_simple g _ [c.headD 0] c (by simp)
      ⟨hcne, hchain, hnodup, hsub⟩ (singleton_headD_startsWith c hcne) ?_
    have := length_le_atoms g c hnodup hsub
    simp only [List.length_singleton]
    omega
  have := List.all_eq_true.mp h c
    (List.mem_flatMap.mpr ⟨c.headD 0, hhead, hmem⟩)
  rw [decide_eq_true_eq] at this
  rcases this with h1 | h1
  · omega
  · exact h1 hadj

/-- The backbone is at least two atoms long (a terminal and its neighbour). -/
theorem backbone_firstMax_two_le (g : ChemGraph) (hwf : WF g)
    (hterm : terminalAtoms g ≠ []) :
    2 ≤ (firstMax (backbonePathsDFS g)).length := by
  rcases List.exists_mem_of_ne_nil _ hterm with ⟨t, ht⟩
  have htatom : t ∈ g.atoms := (List.mem_filter.mp ht).1
  have htdeg : degree g.bonds t = 1 := by
    have := (List.mem_filter.mp ht).2
    simpa using this
  have hnbr : ∃ u, u ∈ nbrs g.bonds t := by
    have : (nbrs g.bonds t).length = 1 := by
      unfold degree at htdeg
      unfold nbrs
      simpa using htdeg
    cases hn : nbrs g.bonds t with
    | nil => rw [hn] at this; simp at this
    | cons u l => exact ⟨u, by simp [hn]⟩
  obtain ⟨u, hu⟩ := hnbr
  have hpair : [t, u] ∈ backbonePathsDFS g := by
    refine (mem_backbonePathsDFS g [t, u]).mpr ⟨t, ht, ?_⟩
    refine mem_allPaths_of_simple g _ [t] [t, u] (by simp)
      (isSimplePath_pair g hwf t u htatom hu) ⟨[u], rfl⟩ ?_
    have : 1 ≤ g.atoms.length := List.length_pos.mpr
      (fun h0 => by rw [h0] at htatom; cases htatom)
    simp only [List.length_cons, List.length_singleton, List.length_nil]
    omega
  have := length_le_firstMax _ [t, u] hpair
  simpa using this

/-- C1: correctness and tie-break of `getBackbone` on an acyclic working graph
with at least three atoms and at least one bond: the result is a
terminal-to-terminal simple path, its atom count is maximal among all
terminal-to-terminal simple paths, and it is the first longest path of the
DFS discovery sequence (terminals in atom order, neighbours in
dict-iteration order). -/
theorem getBackbone_correct (g : ChemGraph) (hwf : WF g) (hacyc : Acyclic g)
    (h3 : 3 ≤ g.atoms.length)
    (hedge : ∃ a ∈ g.atoms, ∃ b, adjacent g.bonds a b) :
    IsTTPath g (getBackbone g) ∧
    (∀ q, IsTTPath g q → q.length ≤ (getBackbone g).length) ∧
    getBackbone g = firstMax (backbonePathsDFS g) := by
  have hnot12 : ¬(g.atoms.length = 1 ∨ g.atoms.length = 2) := by omega
  have heq : getBackbone g = firstMax (backbonePathsDFS g) :=
    getBackbone_eq_firstMax g hnot12
  have hterm : terminalAtoms g ≠ [] := terminalAtoms_ne_nil g hwf hacyc hedge
  set bb := firstMax (backbonePathsDFS g) with hbb
  have hDFSne : backbonePathsDFS g ≠ [] := by
    rcases List.exists_mem_of_ne_nil _ hterm with ⟨t, ht⟩
    intro h0
    have : [t] ∈ backbonePathsDFS g :=
      (mem_backbonePathsDFS g [t]).mpr ⟨t, ht, self_mem_allPaths g _ [t]⟩
    rw [h0] at this
    cases this
  rcases (mem_backbonePathsDFS g bb).mp (hbb ▸ firstMax_mem _ hDFSne)
    with ⟨t, ht, hmem⟩
  have htatom : t ∈ g.atoms := (List.mem_filter.mp ht).1
  have hbbs : IsSimplePath g bb :=
    mem_allPaths_simple g hwf _ [t] bb (isSimplePath_singleton g t htatom) hmem
  have hbb2 : 2 ≤ bb.length := backbone_firstMax_two_le g hwf hterm
  have hhead : bb.headD 0 = t := by
    have := headD_of_startsWith [t] bb 0 (by simp)
      (mem_allPaths_startsWith g _ [t] bb hmem)
    simpa using this
  have hheaddeg : degree g.bonds (bb.headD 0) = 1 := by
    rw [hhead]
    have := (List.mem_filter.mp ht).2
    simpa using this
  have hmaxi : ∀ x ∈ nbrs g.bonds (bb.getLastD 0), x ∈ bb := by
    intro x hx
    exact firstMax_flatMap_not_extendable g hwf (terminalAtoms g)
      (fun s hs => (List.mem_filter.mp hs).1) hterm x hx
  have hlastdeg : degree g.bonds (bb.getLastD 0) = 1 :=
    maximal_last_degree_one g hwf hacyc bb hbbs hbb2 hmaxi
  refine ⟨?_, ?_, heq⟩
  · rw [heq]
    exact ⟨hbbs, hbb2, hheaddeg, hlastdeg⟩
  · intro q hq
    rw [heq]
    obtain ⟨⟨hqne, hqchain, hqnodup, hqsub⟩, hq2, hqhead, hqlast⟩ := hq
    have hq' : q.headD 0 ∈ terminalAtoms g := by
      unfold terminalAtoms
      refine List.mem_filter.mpr ⟨hqsub _ (headD_mem q 0 hqne), ?_⟩
      simpa using hqhead
    have hqmem : q ∈ allPaths g g.atoms.length [q.headD 0] := by
      refine mem_allPaths_of_simple g _ [q.headD 0] q (by simp)
        ⟨hqne, hqchain, hqnodup, hqsub⟩ (singleton_headD_startsWith q hqne) ?_
      have := length_le_atoms g q hqnodup hqsub
      simp only [List.length_singleton]
      omega
    exact length_le_firstMax _ q
      ((mem_backbonePathsDFS g q).mpr ⟨q.headD 0, hq', hqmem⟩)

/-! ## Real-plane geometry of the layout pass

The source computes with `numpy` float64 and `math` trigonometry; the
embedding uses exact real arithmetic. -/

open Real

/-- A 2D coordinate (`u`, `v`). -/
abbrev Vec2 := ℝ × ℝ

/-- `math.atan2(y, x)`, embedded as the complex argument. -/
noncomputable def atan2 (y x : ℝ) : ℝ := Complex.arg ⟨x, y⟩

/-- `numpy.dot(rot, v)` for `rot = [[cos θ, sin θ], [-sin θ, cos θ]]`
(the matrix the source builds in `generateCoordinates` for backbone turns). -/
noncomputable def rotCW (θ : ℝ) (v : Vec2) : Vec2 :=
  (Real.cos θ * v.1 + Real.sin θ * v.2, -Real.sin θ * v.1 + Real.cos θ * v.2)

/-- `numpy.dot(rot, v)` for `rot = [[cos θ, -sin θ], [sin θ, cos θ]]`
(the matrix of the substituent-placement loops). -/
noncomputable def rotCCW (θ : ℝ) (v : Vec2) : Vec2 :=
  (Real.cos θ * v.1 - Real.sin θ * v.2, Real.sin θ * v.1 + Real.cos θ * v.2)

/-- `numpy.linalg.norm` on the plane. -/
noncomputable def norm2 (v : Vec2) : ℝ := Real.sqrt (v.1 ^ 2 + v.2 ^ 2)

/-- The coordinate array, one row per entry of the atom list. -/
abbrev Coords := List Vec2

/-- `coordinates[atoms.index(a), :]`. -/
def lookupCoord (atoms : List AtomId) (coords : Coords) (a : AtomId) : Vec2 :=
  coords.getD (atoms.indexOf a) ((0 : ℝ), (0 : ℝ))

/-- `coordinates[atoms.index(a), :] = v`. -/
def setCoord (atoms : List AtomId) (coords : Coords) (a : AtomId) (v : Vec2) :
    Coords :=
  coords.set (atoms.indexOf a) v

/-- The turn angle of one backbone step, from the pivot atom's bond count and
the two adjacent bond orders (`generateCoordinates`, backbone loop).  The
source's `if/elif` chain binds no angle for a bond count outside 2..6: that
case is `none` (at the first step the Python code would then read an unbound
variable). -/
noncomputable def turnAngle (numBonds : Nat) (bond0 bond : BondOrder) :
    Option ℝ :=
  if numBonds = 2 then
    some (if (bond0 = BondOrder.triple ∨ bond = BondOrder.triple) ∨
        (bond0 = BondOrder.double ∧ bond = BondOrder.double)
      then 0 else π / 3)
  else if numBonds = 3 then some (π / 3)
  else if numBonds = 4 then some 0
  else if numBonds = 5 then some (π / 5)
  else if numBonds = 6 then some 0
  else none

/-- The running state of backbone placement: the coordinate array, the current
bond vector, and the sign toggle of the zig-zag. -/
structure BBState where
  coords : Coords
  vector : Vec2
  rotatePositive : Bool
  /-- The function-scoped `angle` variable of `generateCoordinates`: `none`
  while still unbound (reading it then is Python's UnboundLocalError), and
  after an iteration the value the iteration left in it — the possibly
  negated turn it applied. -/
  angle : Option ℝ

/-- Placement of the first two backbone atoms (`generateCoordinates` lines
472–486): `backbone[0]` at the origin; `backbone[1]` one unit away, along
`(1,0)` for a triple bond, else along `(1,0)` transformed by the source's
rotation matrix with angle `-π/6`. -/
noncomputable def backboneSeed (atoms : List AtomId) (bonds : Adj)
    (backbone : List AtomId) : BBState :=
  let coords0 : Coords := List.replicate atoms.length ((0 : ℝ), (0 : ℝ))
  let index0 := atoms.indexOf (backbone.getD 0 0)
  let coords1 := coords0.set index0 ((0 : ℝ), (0 : ℝ))
  let index1 := atoms.indexOf (backbone.getD 1 0)
  if bondOrder bonds (backbone.getD 0 0) (backbone.getD 1 0) = BondOrder.triple
  then
    { coords := coords1.set index1 (coords1.getD index0 ((0:ℝ),(0:ℝ)) + (1, 0)),
      vector := (1, 0), rotatePositive := false, angle := none }
  else
    let vector := rotCW (-(π / 6)) (1, 0)
    { coords := coords1.set index1 (coords1.getD index0 ((0:ℝ),(0:ℝ)) + vector),
      vector := vector, rotatePositive := true, angle := none }

/-- The value of the `angle` variable a backbone step reads: a fresh
assignment (pivot degree 2–6) takes effect; otherwise the variable keeps its
previous content, which is unbound (`none`) only before the very first
assignment — Python raises UnboundLocalError exactly then. -/
def bindAngle (fresh stale : Option ℝ) : Option ℝ :=
  match fresh with
  | some a => some a
  | none => stale

/-- One backbone step (`generateCoordinates` lines 489–523): the pivot's bond
count selects a fresh turn angle when it is between 2 and 6; otherwise no
branch assigns `angle` and the step reads the stale value left by the
previous iteration (`none`, Python's UnboundLocalError, only at the first
step).  A nonzero angle is applied with alternating sign — the sign-flipped
value is written back into the variable — and the next atom goes one bond
vector further. -/
noncomputable def backboneStep (atoms : List AtomId) (bonds : Adj)
    (backbone : List AtomId) (st : BBState) (i : Nat) : Option BBState :=
  let atom1 := backbone.getD (i - 1) 0
  let atom2 := backbone.getD i 0
  let index1 := atoms.indexOf atom1
  let index2 := atoms.indexOf atom2
  let bond0 := bondOrder bonds (backbone.getD (i - 2) 0) atom1
  let bond := bondOrder bonds atom1 atom2
  (bindAngle (turnAngle (degree bonds atom1) bond0 bond) st.angle).map
    (fun angle =>
      let step : ℝ × Vec2 × Bool :=
        if angle ≠ 0 then
          let angle2 := if st.rotatePositive then angle else -angle
          (angle2, rotCW angle2 st.vector, ¬ st.rotatePositive)
        else (angle, st.vector, st.rotatePositive)
      { coords := st.coords.set index2
          (st.coords.getD index1 ((0 : ℝ), (0 : ℝ)) + step.2.1),
        vector := step.2.1, rotatePositive := step.2.2,
        angle := some step.1 })

/-- The backbone placement loop over `i = 2 .. len(backbone)-1`. -/
noncomputable def placeBackbone (atoms : List AtomId) (bonds : Adj)
    (backbone : List AtomId) : Option BBState :=
  (List.range' 2 (backbone.length - 2)).foldl
    (fun acc i => acc.bind (fun st => backboneStep atoms bonds backbone st i))
    (some (backboneSeed atoms bonds backbone))

/-- `generateCoordinates` lines 525–537: when all backbone bond vectors agree
within `1e-4`, rotate the whole array by `atan2(v0.u, v0.v) - π/2` applied as
the source's row-vector product `numpy.dot(coordinates, rot)`. -/
noncomputable def rotateIfLinear (atoms : List AtomId)
    (backbone : List AtomId) (coords : Coords) : Coords :=
  let vector0 := lookupCoord atoms coords (backbone.getD 1 0) -
    lookupCoord atoms coords (backbone.getD 0 0)
  if ∀ i ∈ List.range' 2 (backbone.length - 2),
      norm2 ((lookupCoord atoms coords (backbone.getD i 0) -
        lookupCoord atoms coords (backbone.getD (i - 1) 0)) - vector0) ≤ 1e-4
  then
    let angle := atan2 vector0.1 vector0.2 - π / 2
    coords.map (fun c =>
      (c.1 * Real.cos angle + c.2 * (-(Real.sin angle)),
       c.1 * Real.sin angle + c.2 * Real.cos angle))
  else coords

/-- The mean of the backbone atoms' coordinates (`origin` of
`generateCoordinates` lines 539–544). -/
noncomputable def backboneCentroid (atoms : List AtomId)
    (backbone : List AtomId) (coords : Coords) : Vec2 :=
  let s := backbone.foldl
    (fun acc a => acc + lookupCoord atoms coords a) ((0 : ℝ), (0 : ℝ))
  (s.1 / (backbone.length : ℝ), s.2 / (backbone.length : ℝ))

/-- `coordinates -= origin`: translate the whole array by the backbone mean. -/
noncomputable def centerCoords (atoms : List AtomId) (backbone : List AtomId)
    (coords : Coords) : Coords :=
  let origin := backboneCentroid atoms backbone coords
  coords.map (fun c => c - origin)

/-- The backbone-placement phase of `generateCoordinates`: seed and loop, the
collinearity rotation, the centering translation. -/
noncomputable def backbonePhase (atoms : List AtomId) (bonds : Adj)
    (backbone : List AtomId) : Option Coords :=
  (placeBackbone atoms bonds backbone).map (fun st =>
    centerCoords atoms backbone (rotateIfLinear atoms backbone st.coords))

/-- The occupancy test of the collision-avoidance loops: some neighbour of the
centre atom lies within `1e-4` of the candidate position `centre + v`. -/
noncomputable def isOccupied (atoms : List AtomId) (bonds : Adj)
    (coords : Coords) (center : AtomId) (v : Vec2) : Prop :=
  ∃ a2 ∈ nbrs bonds center,
    norm2 (lookupCoord atoms coords a2 - lookupCoord atoms coords center - v)
      < 1e-4

noncomputable instance (atoms : List AtomId) (bonds : Adj) (coords : Coords)
    (center : AtomId) (v : Vec2) :
    Decidable (isOccupied atoms bonds coords center v) := by
  unfold isOccupied; infer_instance

/-- The rotate-until-free loop (`while occupied and count < len(bonds[...])`):
rotate the vector, stop at the first candidate that is not occupied or after
`bound` rotations; returns the final vector and the number of rotations
performed. -/
noncomputable def findSlot (rotM : Vec2 → Vec2) (occ : Vec2 → Prop)
    [DecidablePred occ] : Nat → Vec2 → Vec2 × Nat
  | 0, vector => (vector, 0)
  | bound + 1, vector =>
    let v := rotM vector
    if occ v then
      match bound with
      | 0 => (v, 1)
      | b + 1 =>
        let r := findSlot rotM occ (b + 1) v
        (r.1, r.2 + 1)
    else (v, 1)

/-- The rotation angle `processFunctionalGroup` chooses at `atom1` (lines
607–626): for two bonds, `π` on a triple or double–double pair, else `2π/3`
signed to move away from the origin; otherwise `2π/numBonds`. -/
noncomputable def pfgAngle (atoms : List AtomId) (bonds : Adj)
    (coordinates : Coords) (atom0 atom1 : AtomId) : ℝ :=
  let index0 := atoms.indexOf atom0
  let index1 := atoms.indexOf atom1
  let vector := coordinates.getD index0 ((0:ℝ),(0:ℝ)) -
    coordinates.getD index1 ((0:ℝ),(0:ℝ))
  let numBonds := degree bonds atom1
  if numBonds = 2 then
    let bond0 := ((adjNbrs bonds atom1).getD 0 (0, BondOrder.single)).2
    let bond := ((adjNbrs bonds atom1).getD 1 (0, BondOrder.single)).2
    if (bond0 = BondOrder.triple ∨ bond = BondOrder.triple) ∨
        (bond0 = BondOrder.double ∧ bond = BondOrder.double) then π
    else
      let angle := 2 * π / 3
      let vector1 := coordinates.getD index1 ((0:ℝ),(0:ℝ)) + rotCCW angle vector
      let vector2 := coordinates.getD index1 ((0:ℝ),(0:ℝ)) + rotCW angle vector
      if norm2 vector1 < norm2 vector2 then -angle else angle
  else 2 * π / (numBonds : ℝ)

/-- `processFunctionalGroup`: place every neighbour of `atom1` other than
`atom0` by the rotate-until-free loop, then recurse into it.  The explicit
fuel stands for the source's call recursion, which is finite exactly when the
functional group is acyclic; `none` means the recursion depth exceeded the
fuel (the source would recurse without bound). -/
noncomputable def processFunctionalGroup (atoms : List AtomId) (bonds : Adj) :
    Nat → AtomId → AtomId → Coords → Option Coords
  | 0, _, _, _ => none
  | fuel + 1, atom0, atom1, coordinates =>
    let index0 := atoms.indexOf atom0
    let index1 := atoms.indexOf atom1
    let vector := coordinates.getD index0 ((0:ℝ),(0:ℝ)) -
      coordinates.getD index1 ((0:ℝ),(0:ℝ))
    let numBonds := degree bonds atom1
    let angle := pfgAngle atoms bonds coordinates atom0 atom1
    ((adjNbrs bonds atom1).foldl (fun acc p =>
        acc.bind (fun st : Coords × Vec2 =>
          if p.1 = atom0 then some st
          else
            let r := findSlot (rotCCW angle)
              (isOccupied atoms bonds st.1 atom1) numBonds st.2
            let coords2 := setCoord atoms st.1 p.1
              (lookupCoord atoms st.1 atom1 + r.1)
            (processFunctionalGroup atoms bonds fuel atom1 p.1 coords2).map
              (fun c2 => (c2, r.1))))
      (some (coordinates, vector))).map Prod.fst

/-- The substituent loop of `generateCoordinates` (lines 555–581): for every
interior backbone atom, place each neighbour not on the backbone by the
rotate-until-free loop and recurse into its functional group. -/
noncomputable def backboneSubstituents (atoms : List AtomId) (bonds : Adj)
    (backbone : List AtomId) (fuel : Nat) (coords0 : Coords) : Option Coords :=
  (List.range' 1 (backbone.length - 2)).foldl (fun acc i =>
    acc.bind (fun coords =>
      let atom0 := backbone.getD i 0
      let angle := 2 * π / (degree bonds atom0 : ℝ)
      let index0 := atoms.indexOf atom0
      let vector := lookupCoord atoms coords (backbone.getD (i - 1) 0) -
        coords.getD index0 ((0:ℝ),(0:ℝ))
      ((adjNbrs bonds atom0).foldl (fun acc2 p =>
          acc2.bind (fun st : Coords × Vec2 =>
            if p.1 ∈ backbone then some st
            else
              let r := findSlot (rotCCW angle)
                (isOccupied atoms bonds st.1 atom0) (degree bonds atom0) st.2
              let coords2 := setCoord atoms st.1 p.1
                (lookupCoord atoms st.1 atom0 + r.1)
              (processFunctionalGroup atoms bonds fuel atom0 p.1 coords2).map
                (fun c2 => (c2, r.1))))
        (some (coords, vector))).map Prod.fst))
    (some coords0)

/-- `generateCoordinates`: trivial one- and two-atom cases; otherwise the
backbone is found (the source would abort first on a cyclic graph, modelled
as `none`), placed, possibly rotated, centred, and the substituents placed. -/
noncomputable def generateCoordinates (g : ChemGraph) (atoms : List AtomId)
    (bonds : Adj) : Option Coords :=
  let coordinates : Coords := List.replicate atoms.length ((0 : ℝ), (0 : ℝ))
  if atoms.length = 1 then some (coordinates.set 0 ((0 : ℝ), (0 : ℝ)))
  else if atoms.length = 2 then some (coordinates.set 1 ((1 : ℝ), (0 : ℝ)))
  else if isCyclic g then none
  else
    let backbone := getBackbone g
    (backbonePhase atoms bonds backbone).bind
      (backboneSubstituents atoms bonds backbone atoms.length)

/-! ## OrientationSelector (`renderSymbol` lines 240–287) -/

/-- The compass-side decision of `renderSymbol` for the charge/radical glyphs:
terminal atoms pick a quadrant from the bond-direction angle (single-character
label) or the bond's vertical component; internal atoms use the summed
away-from-neighbour vector, falling back to the open-cardinal-window scan and
finally to the top-right corner. -/
noncomputable def renderOrientation (symbol : String) (atom : AtomId)
    (coordinates0 : Coords) (atoms : List AtomId) (bonds : Adj) : String :=
  if degree bonds atom = 1 then
    let atom1 := (nbrs bonds atom).getD 0 0
    let vector := lookupCoord atoms coordinates0 atom -
      lookupCoord atoms coordinates0 atom1
    if symbol.length ≤ 1 then
      let angle := atan2 vector.2 vector.1
      if 3 * π / 4 ≤ angle ∨ angle < -3 * π / 4 then "l"
      else if -3 * π / 4 ≤ angle ∧ angle < -π / 4 then "b"
      else if -π / 4 ≤ angle ∧ angle < π / 4 then "r"
      else "t"
    else if vector.2 ≤ 0 then "b" else "t"
  else
    let vector := (nbrs bonds atom).foldl (fun acc a1 =>
      acc + (lookupCoord atoms coordinates0 atom -
        lookupCoord atoms coordinates0 a1)) ((0 : ℝ), (0 : ℝ))
    if norm2 vector < 1e-4 then
      let angles := (nbrs bonds atom).map (fun a1 =>
        atan2 (lookupCoord atoms coordinates0 a1 -
            lookupCoord atoms coordinates0 atom).2
          (lookupCoord atoms coordinates0 a1 -
            lookupCoord atoms coordinates0 atom).1)
      if ∀ θ ∈ angles, 1 * π / 3 ≥ θ ∨ θ ≥ 2 * π / 3 then "t"
      else if ∀ θ ∈ angles, -2 * π / 3 ≥ θ ∨ θ ≥ -1 * π / 3 then "b"
      else if ∀ θ ∈ angles, -1 * π / 6 ≥ θ ∨ θ ≥ 1 * π / 6 then "r"
      else if ∀ θ ∈ angles, 5 * π / 6 ≥ θ ∨ θ ≥ -5 * π / 6 then "l"
      else "tr"
    else
      let angle := atan2 vector.2 vector.1
      if 3 * π / 4 ≤ angle ∨ angle < -3 * π / 4 then "l"
      else if -3 * π / 4 ≤ angle ∧ angle < -π / 4 then "b"
      else if -π / 4 ≤ angle ∧ angle < π / 4 then "r"
      else "t"

/-! ## Totality of the backbone turn-angle selection -/

theorem turnAngle_isSome_iff (d : Nat) (b0 b : BondOrder) :
    (turnAngle d b0 b).isSome ↔ 2 ≤ d ∧ d ≤ 6 := by
  unfold turnAngle
  split_ifs <;> simp <;> omega

theorem option_isSome_map {α β : Type} (f : α → β) (x : Option α) :
    (Option.map f x).isSome = x.isSome := by
  cases x <;> rfl

theorem bindAngle_isSome (fresh stale : Option ℝ) :
    (bindAngle fresh stale).isSome = (fresh.isSome || stale.isSome) := by
  cases fresh <;> cases stale <;> rfl

theorem backboneSeed_angle (atoms : List AtomId) (bonds : Adj)
    (backbone : List AtomId) :
    (backboneSeed atoms bonds backbone).angle = none := by
  unfold backboneSeed
  split <;> rfl

theorem backboneStep_isSome (atoms : List AtomId) (bonds : Adj)
    (backbone : List AtomId) (st : BBState) (i : Nat) :
    (backboneStep atoms bonds backbone st i).isSome =
      ((turnAngle (degree bonds (backbone.getD (i - 1) 0))
        (bondOrder bonds (backbone.getD (i - 2) 0) (backbone.getD (i - 1) 0))
        (bondOrder bonds (backbone.getD (i - 1) 0)
          (backbone.getD i 0))).isSome || st.angle.isSome) := by
  unfold backboneStep
  rw [option_isSome_map, bindAngle_isSome]

theorem backboneStep_angle_isSome (atoms : List AtomId) (bonds : Adj)
    (backbone : List AtomId) (st : BBState) (i : Nat) (st2 : BBState)
    (h : backboneStep atoms bonds backbone st i = some st2) :
    st2.angle.isSome := by
  unfold backboneStep at h
  rcases Option.map_eq_some'.mp h with ⟨a, _, rfl⟩
  rfl

/-- Once the angle variable is bound, every later backbone step succeeds. -/
theorem foldl_backboneStep_isSome_of_angle (atoms : List AtomId) (bonds : Adj)
    (backbone : List AtomId) (l : List Nat) :
    ∀ st : BBState, st.angle.isSome →
      (l.foldl (fun acc i =>
        acc.bind (fun s => backboneStep atoms bonds backbone s i))
        (some st)).isSome := by
  induction l with
  | nil =>
    intro st _
    simp
  | cons i t ih =>
    intro st hst
    rw [List.foldl_cons, Option.some_bind]
    have hs : (backboneStep atoms bonds backbone st i).isSome = true := by
      rw [backboneStep_isSome, hst]
      simp
    obtain ⟨st2, hst2⟩ := Option.isSome_iff_exists.mp hs
    rw [hst2]
    exact ih st2 (backboneStep_angle_isSome atoms bonds backbone st i st2 hst2)

theorem foldl_backboneStep_none (atoms : List AtomId) (bonds : Adj)
    (backbone : List AtomId) (l : List Nat) :
    l.foldl (fun acc i =>
      acc.bind (fun s => backboneStep atoms bonds backbone s i)) none =
      none := by
  induction l with
  | nil => rfl
  | cons i t ih => simpa using ih

/-- The backbone placement is defined exactly when the backbone is trivial or
the FIRST pivot `backbone[1]` has degree 2–6: only the first loop iteration
can find the angle variable unbound; afterwards every step succeeds, reusing
a stale angle where no fresh one is assigned. -/
theorem placeBackbone_isSome_iff (atoms : List AtomId) (bonds : Adj)
    (backbone : List AtomId) :
    (placeBackbone atoms bonds backbone).isSome ↔
      (backbone.length ≤ 2 ∨
        (2 ≤ degree bonds (backbone.getD 1 0) ∧
          degree bonds (backbone.getD 1 0) ≤ 6)) := by
  unfold placeBackbone
  by_cases hlen : backbone.length ≤ 2
  · have h0 : backbone.length - 2 = 0 := by omega
    rw [h0]
    simp [hlen]
  · have hrange : List.range' 2 (backbone.length - 2) =
        2 :: List.range' 3 (backbone.length - 3) := by
      have h1 : backbone.length - 2 = (backbone.length - 3) + 1 := by omega
      rw [h1]
      rfl
    rw [hrange, List.foldl_cons, Option.some_bind, or_iff_right hlen]
    have hfirst : (backboneStep atoms bonds backbone
        (backboneSeed atoms bonds backbone) 2).isSome =
        (turnAngle (degree bonds (backbone.getD 1 0))
          (bondOrder bonds (backbone.getD 0 0) (backbone.getD 1 0))
          (bondOrder bonds (backbone.getD 1 0)
            (backbone.getD 2 0))).isSome := by
      rw [backboneStep_isSome, backboneSeed_angle]
      norm_num
    constructor
    · intro h
      rcases hs : backboneStep atoms bonds backbone
          (backboneSeed atoms bonds backbone) 2 with _ | st1
      · rw [hs, foldl_backboneStep_none] at h
        simp at h
      · have ht : (turnAngle (degree bonds (backbone.getD 1 0))
            (bondOrder bonds (backbone.getD 0 0) (backbone.getD 1 0))
            (bondOrder bonds (backbone.getD 1 0)
              (backbone.getD 2 0))).isSome = true := by
          rw [← hfirst, hs]
          rfl
        rw [turnAngle_isSome_iff] at ht
        exact ht
    · intro hdeg
      have ht := (turnAngle_isSome_iff (degree bonds (backbone.getD 1 0))
        (bondOrder bonds (backbone.getD 0 0) (backbone.getD 1 0))
        (bondOrder bonds (backbone.getD 1 0)
          (backbone.getD 2 0))).mpr hdeg
      have hs : (backboneStep atoms bonds backbone
          (backboneSeed atoms bonds backbone) 2).isSome = true := by
        rw [hfirst]
        exact ht
      obtain ⟨st1, hst1⟩ := Option.isSome_iff_exists.mp hs
      rw [hst1]
      exact foldl_backboneStep_isSome_of_angle atoms bonds backbone _ st1
        (backboneStep_angle_isSome atoms bonds backbone _ 2 st1 hst1)

/-! ## The backbone centroid is the origin after centring -/

theorem getD_map_of_lt {α β : Type} (f : α → β) (l : List α) (i : Nat)
    (d : β) (d2 : α) (h : i < l.length) :
    (l.map f).getD i d = f (l.getD i d2) := by
  rw [List.getD_eq_getElem?_getD, List.getElem?_map,
    List.getD_eq_getElem?_getD, List.getElem?_eq_getElem h]
  rfl

theorem foldl_add_eq_sum (l : List AtomId) (f : AtomId → Vec2) (init : Vec2) :
    l.foldl (fun acc a => acc + f a) init = init + (l.map f).sum := by
  induction l generalizing init with
  | nil => simp
  | cons a t ih => simp [ih, add_assoc]

theorem sum_map_sub_const (l : List AtomId) (f : AtomId → Vec2) (o : Vec2) :
    (l.map (fun a => f a - o)).sum = (l.map f).sum - l.length • o := by
  induction l with
  | nil => simp
  | cons a t ih =>
    simp only [List.map_cons, List.sum_cons, ih, List.length_cons]
    rw [succ_nsmul]
    abel

theorem lookupCoord_centerCoords (atoms : List AtomId)
    (backbone : List AtomId) (coords : Coords) (a : AtomId)
    (ha : a ∈ atoms) (hlen : coords.length = atoms.length) :
    lookupCoord atoms (centerCoords atoms backbone coords) a =
      lookupCoord atoms coords a - backboneCentroid atoms backbone coords := by
  unfold centerCoords lookupCoord
  exact getD_map_of_lt _ coords (atoms.indexOf a) _ ((0:ℝ),(0:ℝ))
    (by rw [hlen]; exact List.indexOf_lt_length.mpr ha)

theorem centerCoords_centroid_zero (atoms : List AtomId)
    (backbone : List AtomId) (coords : Coords) (hne : backbone ≠ [])
    (hsub : ∀ a ∈ backbone, a ∈ atoms)
    (hlen : coords.length = atoms.length) :
    backboneCentroid atoms backbone (centerCoords atoms backbone coords) =
      ((0 : ℝ), (0 : ℝ)) := by
  set o := backboneCentroid atoms backbone coords with ho
  have hsum : backbone.foldl (fun acc a =>
        acc + lookupCoord atoms (centerCoords atoms backbone coords) a)
      ((0:ℝ),(0:ℝ)) =
      backbone.foldl (fun acc a => acc + lookupCoord atoms coords a)
        ((0:ℝ),(0:ℝ)) - backbone.length • o := by
    rw [foldl_add_eq_sum, foldl_add_eq_sum]
    have hmap : backbone.map
          (fun a => lookupCoord atoms (centerCoords atoms backbone coords) a) =
        backbone.map (fun a => lookupCoord atoms coords a - o) :=
      List.map_congr_left (fun a haa =>
        lookupCoord_centerCoords atoms backbone coords a (hsub a haa) hlen)
    rw [hmap, sum_map_sub_const]
    abel
  have hn : (backbone.length : ℝ) ≠ 0 := by
    have := List.length_pos.mpr hne
    positivity
  show (_ , _) = ((0:ℝ), (0:ℝ))
  rw [hsum]
  have hsmul1 : ((backbone.length • o).1) = (backbone.length : ℝ) * o.1 := by
    simp [nsmul_eq_mul]
  have hsmul2 : ((backbone.length • o).2) = (backbone.length : ℝ) * o.2 := by
    simp [nsmul_eq_mul]
  have ho1 : o.1 = (backbone.foldl (fun acc a =>
      acc + lookupCoord atoms coords a) ((0:ℝ),(0:ℝ))).1 /
      (backbone.length : ℝ) := by rw [ho]; rfl
  have ho2 : o.2 = (backbone.foldl (fun acc a =>
      acc + lookupCoord atoms coords a) ((0:ℝ),(0:ℝ))).2 /
      (backbone.length : ℝ) := by rw [ho]; rfl
  refine Prod.ext ?_ ?_
  · show ((backbone.foldl _ _ - backbone.length • o).1) /
      (backbone.length : ℝ) = 0
    rw [Prod.fst_sub, hsmul1, ho1]
    field_simp
  · show ((backbone.foldl _ _ - backbone.length • o).2) /
      (backbone.length : ℝ) = 0
    rw [Prod.snd_sub, hsmul2, ho2]
    field_simp

/-- Generic preservation along an option-threaded fold. -/
theorem foldl_bind_preserve {σ : Type} (P : σ → Prop) (step : σ → Nat → Option σ)
    (hstep : ∀ st i st2, step st i = some st2 → P st → P st2) :
    ∀ (l : List Nat) (init : Option σ) (st : σ),
      l.foldl (fun acc i => acc.bind (fun s => step s i)) init = some st →
      (∀ s0, init = some s0 → P s0) → P st := by
  intro l
  induction l with
  | nil =>
    intro init st h hinit
    exact hinit st h
  | cons i l ih =>
    intro init st h hinit
    refine ih _ st h ?_
    intro s0 h0
    rcases Option.bind_eq_some.mp h0 with ⟨s1, hs1, hstep1⟩
    exact hstep s1 i s0 hstep1 (hinit s1 hs1)

theorem placeBackbone_coords_length (atoms : List AtomId) (bonds : Adj)
    (backbone : List AtomId) (st : BBState)
    (h : placeBackbone atoms bonds backbone = some st) :
    st.coords.length = atoms.length := by
  refine foldl_bind_preserve (fun s => s.coords.length = atoms.length)
    (fun s i => backboneStep atoms bonds backbone s i) ?_ _ _ st h ?_
  · intro s i s2 hs2 hlen
    unfold backboneStep at hs2
    rcases Option.map_eq_some'.mp hs2 with ⟨angle, _, rfl⟩
    simpa using hlen
  · intro s0 h0
    have : s0 = backboneSeed atoms bonds backbone := by
      injection h0.symm
    rw [this]
    unfold backboneSeed
    split <;> simp

theorem rotateIfLinear_length (atoms : List AtomId) (backbone : List AtomId)
    (coords : Coords) :
    (rotateIfLinear atoms backbone coords).length = coords.length := by
  unfold rotateIfLinear
  dsimp only
  split <;> simp

/-- C5: after the backbone phase completes — seed, turn loop, collinearity
rotation and final translation — the centroid of the backbone atoms'
coordinates is exactly the origin. -/
theorem backbonePhase_centroid_eq (atoms : List AtomId) (bonds : Adj)
    (backbone : List AtomId) (cs : Coords) (hne : backbone ≠ [])
    (hsub : ∀ a ∈ backbone, a ∈ atoms)
    (h : backbonePhase atoms bonds backbone = some cs) :
    backboneCentroid atoms backbone cs = ((0 : ℝ), (0 : ℝ)) := by
  rcases Option.map_eq_some'.mp h with ⟨st, hst, rfl⟩
  refine centerCoords_centroid_zero atoms backbone _ hne hsub ?_
  rw [rotateIfLinear_length]
  exact placeBackbone_coords_length atoms bonds backbone st hst

/-! ## The placement of `backbone[1]` -/

theorem getD_set_self (l : Coords) (i : Nat) (v d : Vec2)
    (h : i < l.length) : (l.set i v).getD i d = v := by
  rw [List.getD_eq_getElem?_getD, List.getElem?_set_self h]
  rfl

theorem getD_set_of_ne (l : Coords) (i j : Nat) (v d : Vec2) (hne : i ≠ j) :
    (l.set j v).getD i d = l.getD i d := by
  rw [List.getD_eq_getElem?_getD, List.getD_eq_getElem?_getD,
    List.getElem?_set_ne (Ne.symm hne)]

theorem indexOf_ne_of_mem (l : List AtomId) (a b : AtomId) (ha : a ∈ l)
    (hb : b ∈ l) (hne : a ≠ b) : l.indexOf a ≠ l.indexOf b := by
  intro h
  apply hne
  have h1 := List.indexOf_lt_length.mpr ha
  have h2 := List.indexOf_lt_length.mpr hb
  have e1 : l[l.indexOf a] = a := List.getElem_indexOf h1
  have e2 : l[l.indexOf b] = b := List.getElem_indexOf h2
  rw [← e1, ← e2]
  congr 1

/-- After the seed step, the displacement of `backbone[1]` from `backbone[0]`
is `(1,0)` for a triple bond and otherwise `(cos (π/6), sin (π/6))` — i.e.
`(1,0)` turned by `+π/6`, towards POSITIVE `y` (the matrix
`[[cos θ, sin θ], [-sin θ, cos θ]]` with `θ = -π/6` applied to `(1,0)`). -/
theorem backboneSeed_displacement (atoms : List AtomId) (bonds : Adj)
    (backbone : List AtomId)
    (hne : backbone.getD 0 0 ≠ backbone.getD 1 0)
    (h0 : backbone.getD 0 0 ∈ atoms) (h1 : backbone.getD 1 0 ∈ atoms) :
    lookupCoord atoms (backboneSeed atoms bonds backbone).coords
        (backbone.getD 1 0) -
      lookupCoord atoms (backboneSeed atoms bonds backbone).coords
        (backbone.getD 0 0) =
      (if bondOrder bonds (backbone.getD 0 0) (backbone.getD 1 0) =
          BondOrder.triple
        then ((1 : ℝ), (0 : ℝ))
        else (Real.cos (π / 6), Real.sin (π / 6))) := by
  have hi0 : atoms.indexOf (backbone.getD 0 0) < atoms.length :=
    List.indexOf_lt_length.mpr h0
  have hi1 : atoms.indexOf (backbone.getD 1 0) < atoms.length :=
    List.indexOf_lt_length.mpr h1
  have hij : atoms.indexOf (backbone.getD 0 0) ≠
      atoms.indexOf (backbone.getD 1 0) :=
    indexOf_ne_of_mem atoms _ _ h0 h1 hne
  have hrot : rotCW (-(π / 6)) ((1 : ℝ), (0 : ℝ)) =
      (Real.cos (π / 6), Real.sin (π / 6)) := by
    unfold rotCW
    rw [Real.cos_neg, Real.sin_neg]
    norm_num
  unfold backboneSeed lookupCoord
  split
  · dsimp only
    rw [getD_set_self _ _ _ _ (by simpa using hi1),
      getD_set_of_ne _ _ _ _ _ hij,
      getD_set_self _ _ _ _ (by simpa using hi0)]
    rw [show (((0:ℝ),(0:ℝ)) : Vec2) = 0 from rfl]
    abel
  · dsimp only
    rw [getD_set_self _ _ _ _ (by simpa using hi1),
      getD_set_of_ne _ _ _ _ _ hij,
      getD_set_self _ _ _ _ (by simpa using hi0)]
    rw [hrot, show (((0:ℝ),(0:ℝ)) : Vec2) = 0 from rfl]
    abel

theorem norm2_seed_vector (b : BondOrder) :
    norm2 (if b = BondOrder.triple then ((1 : ℝ), (0 : ℝ))
      else (Real.cos (π / 6), Real.sin (π / 6))) = 1 := by
  split
  · unfold norm2
    norm_num
  · unfold norm2
    rw [show (Real.cos (π/6), Real.sin (π/6)).1 = Real.cos (π/6) from rfl,
      show (Real.cos (π/6), Real.sin (π/6)).2 = Real.sin (π/6) from rfl,
      Real.cos_sq_add_sin_sq, Real.sqrt_one]

/-! ## The orientation of a terminal atom seen from the right -/

theorem atan2_zero_neg_one : atan2 0 (-1) = π := by
  have : (⟨-1, 0⟩ : ℂ) = (-1 : ℂ) := by
    apply Complex.ext <;> simp
  rw [atan2, this, Complex.arg_neg_one]

/-- C9: a degree-1 atom with a label of at most one character whose sole
neighbour sits exactly one unit in its `+x` direction gets orientation
`"l"` (left): the bond-direction angle is `π`, in the `[3π/4, -3π/4)`
wraparound window. -/
theorem renderOrientation_terminal_left (symbol : String) (atom : AtomId)
    (coordinates0 : Coords) (atoms : List AtomId) (bonds : Adj)
    (hdeg : degree bonds atom = 1) (hsym : symbol.length ≤ 1)
    (hself : lookupCoord atoms coordinates0 atom = ((0 : ℝ), (0 : ℝ)))
    (hnbr : lookupCoord atoms coordinates0 ((nbrs bonds atom).getD 0 0) =
      ((1 : ℝ), (0 : ℝ))) :
    renderOrientation symbol atom coordinates0 atoms bonds = "l" := by
  unfold renderOrientation
  rw [if_pos hdeg]
  dsimp only
  rw [hself, hnbr]
  have hvec : (((0:ℝ),(0:ℝ)) : Vec2) - ((1:ℝ),(0:ℝ)) = ((-1:ℝ), (0:ℝ)) := by
    norm_num [Prod.ext_iff]
  rw [hvec, if_pos hsym]
  have hangle : atan2 ((-1:ℝ), (0:ℝ)).2 ((-1:ℝ), (0:ℝ)).1 = π := by
    exact atan2_zero_neg_one
  rw [hangle]
  rw [if_pos]
  left
  nlinarith [Real.pi_pos]

/-! ## Termination of the substituent recursion -/

/-- A non-backtracking walk: consecutive atoms are bonded and no atom equals
the atom two steps before it (the recursion of `processFunctionalGroup`
descends into every neighbour except the one it came from). -/
def NBWalk (bonds : Adj) (w : List AtomId) : Prop :=
  w.Chain' (adjacent bonds) ∧
    ∀ i (h2 : i + 2 < w.length), w.get ⟨i + 2, h2⟩ ≠ w.get ⟨i, by omega⟩

theorem NBWalk.tail (bonds : Adj) (a : AtomId) (rest : List AtomId)
    (h : NBWalk bonds (a :: rest)) : NBWalk bonds rest := by
  refine ⟨h.1.tail, ?_⟩
  intro i h2
  have h2' : i + 1 + 2 < (a :: rest).length := by
    simp only [List.length_cons]
    omega
  have := h.2 (i + 1) h2'
  simpa using this

theorem walk_subset_atoms (g : ChemGraph) (hwf : WF g) :
    ∀ w, w.Chain' (adjacent g.bonds) → (w ≠ [] → w.headD 0 ∈ g.atoms) →
      ∀ a ∈ w, a ∈ g.atoms := by
  intro w
  induction w with
  | nil => intro _ _ a ha; cases ha
  | cons a rest ih =>
    intro hchain hhead x hx
    have hamem : a ∈ g.atoms := hhead (by simp)
    rcases List.mem_cons.mp hx with rfl | hx
    · exact hamem
    · refine ih hchain.tail ?_ x hx
      intro hrest
      cases rest with
      | nil => exact absurd rfl hrest
      | cons b rest2 =>
        have : adjacent g.bonds a b := (List.chain'_cons.mp hchain).1
        exact nbrs_mem_atoms g hwf a b hamem this

/-- In an acyclic well-formed graph every non-backtracking walk whose atoms
lie in the graph is duplicate-free. -/
theorem nbwalk_nodup (g : ChemGraph) (hwf : WF g) (hacyc : Acyclic g) :
    ∀ n w, w.length ≤ n → NBWalk g.bonds w → (∀ a ∈ w, a ∈ g.atoms) →
      w.Nodup := by
  intro n
  induction n with
  | zero =>
    intro w hw _ _
    rw [Nat.le_zero, List.length_eq_zero] at hw
    rw [hw]
    exact List.nodup_nil
  | succ n ih =>
    intro w hw hnb hsub
    cases w with
    | nil => exact List.nodup_nil
    | cons a rest =>
      have hrlen : rest.length ≤ n := by
        simp only [List.length_cons] at hw
        omega
      have hrestn : rest.Nodup :=
        ih rest hrlen (NBWalk.tail g.bonds a rest hnb)
          (fun x hx => hsub x (List.mem_cons_of_mem a hx))
      rw [List.nodup_cons]
      refine ⟨?_, hrestn⟩
      intro hmem
      obtain ⟨⟨k, hk⟩, hka⟩ := List.get_of_mem hmem
      have hamem : a ∈ g.atoms := hsub a (by simp)
      -- case on the position of the repeat
      rcases Nat.lt_or_ge k 2 with hk2 | hk2
      · interval_cases k
        · -- immediate repeat: a bonded to itself
          have hadj : adjacent g.bonds a (rest.get ⟨0, hk⟩) := by
            cases rest with
            | nil => simp at hk
            | cons b rest2 =>
              exact (List.chain'_cons.mp hnb.1).1
          rw [hka] at hadj
          exact hwf.2.2.2.2.1 a hamem hadj
        · -- repeat two steps later: forbidden backtrack
          have hlt : 0 + 2 < (a :: rest).length := by
            simp only [List.length_cons]
            omega
          have := hnb.2 0 hlt
          apply this
          show (a :: rest).get ⟨2, _⟩ = (a :: rest).get ⟨0, _⟩
          have h1 : (a :: rest).get ⟨2, hlt⟩ = rest.get ⟨1, hk⟩ := rfl
          rw [h1, hka]
          rfl
      · -- a genuine simple cycle `a :: rest.take k`
        have htlen : (rest.take k).length = k := by
          rw [List.length_take]
          omega
        have htne : rest.take k ≠ [] := by
          intro h0
          rw [h0] at htlen
          simp at htlen
          omega
        set c := a :: rest.take k with hc
        have hcpre : c <+: a :: rest :=
          List.cons_prefix_cons.mpr ⟨rfl, List.take_prefix k rest⟩
        have hcchain : c.Chain' (adjacent g.bonds) :=
          List.Chain'.prefix hnb.1 hcpre
        have hcnodup : c.Nodup := by
          rw [hc, List.nodup_cons]
          constructor
          · intro hmem2
            have hsplit : rest.take k ++ rest.drop k = rest :=
              List.take_append_drop k rest
            have hnd : (rest.take k ++ rest.drop k).Nodup := by
              rw [hsplit]
              exact hrestn
            have hdisj := (List.nodup_append.mp hnd).2.2
            have hdropmem : a ∈ rest.drop k := by
              rw [← hka]
              have hdlen : 0 < (rest.drop k).length := by
                rw [List.length_drop]
                omega
              have h0 : (rest.drop k).get ⟨0, hdlen⟩ = rest.get ⟨k, hk⟩ := by
                simp [List.get_eq_getElem, List.getElem_drop]
              rw [← h0]
              exact List.get_mem _ _ _
            exact hdisj hmem2 hdropmem
          · exact hrestn.sublist (List.take_sublist k rest)
        have hcsub : ∀ x ∈ c, x ∈ g.atoms := fun x hx =>
          hsub x (hcpre.subset hx)
        have hchd : c.headD 0 = a := rfl
        have hclast : c.getLastD 0 = rest.get ⟨k - 1, by omega⟩ := by
          rw [hc, List.getLastD_cons, getLastD_eq_get _ a htne]
          simp only [List.get_eq_getElem, List.getElem_take, htlen]
        have hadjlast : adjacent g.bonds (c.getLastD 0) (c.headD 0) := by
          rw [hchd, hclast, ← hka]
          have hchrest : rest.Chain' (adjacent g.bonds) := hnb.1.tail
          have hstep := List.chain'_iff_get.mp hchrest (k - 1) (by omega)
          convert hstep using 3
          omega
        exact hacyc c ⟨⟨by simp [hc], hcchain, hcnodup, hcsub⟩,
          by
            rw [hc]
            simp only [List.length_cons, htlen]
            omega,
          hadjlast⟩

/-- A one-edge walk is a non-backtracking walk. -/
theorem nbwalk_pair (bonds : Adj) (a b : AtomId) (hab : adjacent bonds a b) :
    NBWalk bonds [a, b] := by
  refine ⟨?_, ?_⟩
  · exact List.chain'_cons.mpr ⟨hab, List.chain'_singleton b⟩
  · intro i h2
    simp at h2

/-- Extending a non-backtracking walk on the left by an adjacent atom that is
not the walk's second element stays non-backtracking. -/
theorem NBWalk.cons_left (bonds : Adj) (a b c : AtomId) (rest : List AtomId)
    (h : NBWalk bonds (b :: c :: rest)) (hab : adjacent bonds a b)
    (hca : c ≠ a) : NBWalk bonds (a :: b :: c :: rest) := by
  refine ⟨List.chain'_cons.mpr ⟨hab, h.1⟩, ?_⟩
  intro i h2
  match i with
  | 0 =>
    intro hEq
    exact hca hEq
  | i + 1 =>
    have h2' : i + 2 < (b :: c :: rest).length := by
      simp only [List.length_cons] at h2 ⊢
      omega
    have := h.2 i h2'
    simpa using this

/-- Every non-backtracking walk in a well-formed acyclic graph that starts at
a graph atom has length at most the number of atoms. -/
theorem nbwalk_length_le (g : ChemGraph) (hwf : WF g) (hacyc : Acyclic g)
    (w : List AtomId) (hnb : NBWalk g.bonds w)
    (hhd : w ≠ [] → w.headD 0 ∈ g.atoms) : w.length ≤ g.atoms.length := by
  have hsub : ∀ a ∈ w, a ∈ g.atoms := walk_subset_atoms g hwf w hnb.1 hhd
  have hnd : w.Nodup := nbwalk_nodup g hwf hacyc w.length w le_rfl hnb hsub
  exact (hnd.subperm hsub).length_le

/-- Folding an option-bind step whose every application to a `some` yields a
`some` keeps the accumulator a `some`. -/
theorem foldl_bind_isSome {α β : Type} (f : β → α → Option α) (l : List β)
    (h : ∀ p ∈ l, ∀ a, (f p a).isSome) :
    ∀ init : α,
      (l.foldl (fun acc p => acc.bind (fun a => f p a)) (some init)).isSome := by
  induction l with
  | nil => intro init; simp
  | cons p t ih =>
    intro init
    have hp : (f p init).isSome := h p (List.mem_cons_self p t) init
    obtain ⟨a1, ha1⟩ := Option.isSome_iff_exists.mp hp
    have hstep : (some init).bind (fun a => f p a) = some a1 := by
      simpa using ha1
    rw [List.foldl_cons, hstep]
    exact ih (fun q hq a => h q (List.mem_cons_of_mem p hq) a) a1

/-- The rotate-until-free loop: the rotation count never exceeds the bound,
the returned vector is the count-fold rotation of the input, every strictly
earlier rotation attempt was occupied, and the loop stops either at a free
slot or because the bound is reached. -/
theorem findSlot_spec (rotM : Vec2 → Vec2) (occ : Vec2 → Prop)
    [DecidablePred occ] :
    ∀ (bound : Nat) (v : Vec2),
      (findSlot rotM occ bound v).2 ≤ bound ∧
      (findSlot rotM occ bound v).1 =
        rotM^[(findSlot rotM occ bound v).2] v ∧
      (∀ j, 1 ≤ j → j < (findSlot rotM occ bound v).2 → occ (rotM^[j] v)) ∧
      (¬ occ (findSlot rotM occ bound v).1 ∨
        (findSlot rotM occ bound v).2 = bound) := by
  intro bound
  induction bound with
  | zero =>
    intro v
    refine ⟨le_rfl, rfl, ?_, Or.inr rfl⟩
    intro j h1 h2
    simp [findSlot] at h2
  | succ b ih =>
    intro v
    by_cases hocc : occ (rotM v)
    · match b with
      | 0 =>
        have hval : findSlot rotM occ 1 v = (rotM v, 1) := by
          simp [findSlot, hocc]
        rw [hval]
        refine ⟨le_rfl, by simp, ?_, Or.inr rfl⟩
        intro j h1 h2
        omega
      | b1 + 1 =>
        have hval : findSlot rotM occ (b1 + 2) v =
            ((findSlot rotM occ (b1 + 1) (rotM v)).1,
             (findSlot rotM occ (b1 + 1) (rotM v)).2 + 1) := by
          simp [findSlot, hocc]
        obtain ⟨ihle, ihiter, ihmin, ihstop⟩ := ih (rotM v)
        rw [hval]
        refine ⟨by omega, ?_, ?_, ?_⟩
        · rw [ihiter, ← Function.iterate_succ_apply]
        · intro j h1 h2
          match j with
          | 1 => simpa using hocc
          | j + 2 =>
            have := ihmin (j + 1) (by omega) (by omega)
            rw [Function.iterate_succ_apply] at this
            exact this
        · rcases ihstop with hfree | hfull
          · exact Or.inl hfree
          · exact Or.inr (by omega)
    · have hval : findSlot rotM occ (b + 1) v = (rotM v, 1) := by
        match b with
        | 0 => simp [findSlot, hocc]
        | b1 + 1 => simp [findSlot, hocc]
      rw [hval]
      refine ⟨by omega, by simp, ?_, Or.inl hocc⟩
      intro j h1 h2
      omega

/-- Fuel-indexed termination of `processFunctionalGroup`: if every
non-backtracking continuation of the entering edge is shorter than the fuel,
the recursion completes. -/
theorem processFunctionalGroup_isSome_of_bound (atoms : List AtomId)
    (bonds : Adj) :
    ∀ (fuel : Nat) (atom0 atom1 : AtomId),
      adjacent bonds atom0 atom1 →
      (∀ w, NBWalk bonds (atom0 :: atom1 :: w) → w.length < fuel) →
      ∀ coordinates,
        (processFunctionalGroup atoms bonds fuel atom0 atom1
          coordinates).isSome := by
  intro fuel
  induction fuel with
  | zero =>
    intro atom0 atom1 hadj hbound coordinates
    exact absurd (hbound [] (nbwalk_pair bonds atom0 atom1 hadj)) (by omega)
  | succ f ih =>
    intro atom0 atom1 hadj hbound coordinates
    show (Option.map Prod.fst _).isSome
    rw [option_isSome_map]
    exact foldl_bind_isSome _ (adjNbrs bonds atom1)
      (by
        intro p hp st
        by_cases hp0 : p.1 = atom0
        · simp only [hp0, if_pos rfl]
          rfl
        · rw [if_neg hp0]
          rw [option_isSome_map]
          have hadj1 : adjacent bonds atom1 p.1 := by
            unfold adjacent nbrs
            exact List.mem_map_of_mem Prod.fst hp
          refine ih atom1 p.1 hadj1 ?_ _
          intro w hw
          have hext : NBWalk bonds (atom0 :: atom1 :: p.1 :: w) :=
            NBWalk.cons_left bonds atom0 atom1 p.1 w hw hadj hp0
          have := hbound (p.1 :: w) hext
          simp only [List.length_cons] at this
          omega) _

/-- Termination of `processFunctionalGroup` on a well-formed acyclic graph:
fuel equal to the atom count always suffices. -/
theorem processFunctionalGroup_isSome (g : ChemGraph) (hwf : WF g)
    (hacyc : Acyclic g) (atom0 atom1 : AtomId) (h0 : atom0 ∈ g.atoms)
    (hadj : adjacent g.bonds atom0 atom1) (coordinates : Coords) :
    (processFunctionalGroup g.atoms g.bonds g.atoms.length atom0 atom1
      coordinates).isSome := by
  refine processFunctionalGroup_isSome_of_bound g.atoms g.bonds g.atoms.length
    atom0 atom1 hadj ?_ coordinates
  intro w hw
  have hlen := nbwalk_length_le g hwf hacyc (atom0 :: atom1 :: w) hw
    (fun _ => h0)
  simp only [List.length_cons] at hlen
  omega

/-! ## Claim theorems on the remaining stages, with concrete instances -/

/-- A three-atom single-bonded chain `0 - 1 - 2`. -/
def pathGraph3 : ChemGraph :=
  ⟨[0, 1, 2],
   [(0, [(1, BondOrder.single)]),
    (1, [(0, BondOrder.single), (2, BondOrder.single)]),
    (2, [(1, BondOrder.single)])]⟩

/-- A three-atom ring. -/
def triangleGraph : ChemGraph :=
  ⟨[0, 1, 2],
   [(0, [(1, BondOrder.single), (2, BondOrder.single)]),
    (1, [(0, BondOrder.single), (2, BondOrder.single)]),
    (2, [(0, BondOrder.single), (1, BondOrder.single)])]⟩

/-- Three atoms with no bond at all. -/
def isolated3 : ChemGraph := ⟨[0, 1, 2], [(0, []), (1, []), (2, [])]⟩

/-- One carbon atom carrying a radical electron and no bond. -/
def loneCAttrs : List (AtomId × AtomData) := [(0, ⟨"C", 1, 0, "", false⟩)]

/-- The bond table of the lone carbon. -/
def loneCBonds : Adj := [(0, [])]

/-- A carbon bonded to one implicit hydrogen, with atom attributes. -/
def chAtoms : List (AtomId × AtomData) :=
  [(0, ⟨"C", 0, 0, "", false⟩), (1, ⟨"H", 0, 0, "", true⟩)]

/-- The pointer structure of the caller's bond table for the C to H molecule:
each atom's top entry points at an inner dictionary in the shared store. -/
def chDicts : BondDicts :=
  ⟨[(0, 10), (1, 11)],
   [(10, [(1, BondOrder.single)]), (11, [(0, BondOrder.single)])]⟩

/-- The two-atom bond table used by the orientation witness. -/
def twoAtomBonds : Adj :=
  [(0, [(1, BondOrder.single)]), (1, [(0, BondOrder.single)])]

theorem getBackbone_correct_w :
    IsTTPath pathGraph3 (getBackbone pathGraph3) ∧
    (∀ q, IsTTPath pathGraph3 q →
      q.length ≤ (getBackbone pathGraph3).length) ∧
    getBackbone pathGraph3 = firstMax (backbonePathsDFS pathGraph3) :=
  getBackbone_correct pathGraph3 (by decide)
    (acyclic_of_cycleFree pathGraph3 (by decide) (by decide))
    (by decide) ⟨0, by decide, 1, by decide⟩

/-- On an acyclic bond-free graph of three atoms there is no terminal atom,
and `getBackbone` returns the empty list — not a terminal-to-terminal path —
so the claim needs the extra hypothesis that some bond exists. -/
theorem getBackbone_correct_cex :
    WF isolated3 ∧ Acyclic isolated3 ∧ 3 ≤ isolated3.atoms.length ∧
    getBackbone isolated3 = [] ∧
    ¬ IsTTPath isolated3 (getBackbone isolated3) := by
  refine ⟨by decide, acyclic_of_cycleFree isolated3 (by decide) (by decide),
    by decide, by decide, ?_⟩
  intro h
  exact h.1.1 (by decide)

/-- C2: on a cyclic working graph the source's `getBackbone` does not hand a
recoverable `UnsupportedStructure` error back to the caller: its cyclic
branch prints the cycles' atom indices and calls `quit()`, terminating the
host process, modelled as `BackboneResult.processAbort`. -/
theorem getBackboneRun_cyclic_aborts :
    WF triangleGraph ∧ isCyclic triangleGraph = true ∧
    getBackboneRun triangleGraph = BackboneResult.processAbort := by
  decide

/-- C3: the bond-table copy of `drawMolecule` is a shallow dictionary copy,
so the hydrogen-stripping loop mutates the caller's graph: read through the
caller's own unchanged top-level dictionary, carbon's neighbour dictionary
held the C to H bond before the pass and is empty after it. -/
theorem stripBondTable_mutates_caller :
    viewAdj chDicts.top chDicts.store 0 = [(1, BondOrder.single)] ∧
    viewAdj chDicts.top (stripBondTable chAtoms chDicts).store 0 = [] := by
  decide

theorem backbonePhase_centroid_w :
    ∃ cs, backbonePhase pathGraph3.atoms pathGraph3.bonds [0, 1, 2] =
        some cs ∧
      backboneCentroid pathGraph3.atoms [0, 1, 2] cs = ((0 : ℝ), (0 : ℝ)) := by
  have hs : (backbonePhase pathGraph3.atoms pathGraph3.bonds
      [0, 1, 2]).isSome := by
    unfold backbonePhase
    rw [option_isSome_map, placeBackbone_isSome_iff]
    right
    decide
  obtain ⟨cs, hcs⟩ := Option.isSome_iff_exists.mp hs
  exact ⟨cs, hcs, backbonePhase_centroid_eq pathGraph3.atoms pathGraph3.bonds
    [0, 1, 2] cs (by decide) (by decide) hcs⟩

/-- C6: `backbone[1]` sits at unit distance from `backbone[0]`; the
displacement is `(1,0)` on a triple bond and otherwise `(1,0)` turned by
`+π/6` towards POSITIVE `y` — `(cos (π/6), sin (π/6))` — seeding the
zig-zag. -/
theorem seed_step_spec (atoms : List AtomId) (bonds : Adj)
    (backbone : List AtomId)
    (hne : backbone.getD 0 0 ≠ backbone.getD 1 0)
    (h0 : backbone.getD 0 0 ∈ atoms) (h1 : backbone.getD 1 0 ∈ atoms) :
    (lookupCoord atoms (backboneSeed atoms bonds backbone).coords
        (backbone.getD 1 0) -
      lookupCoord atoms (backboneSeed atoms bonds backbone).coords
        (backbone.getD 0 0) =
      (if bondOrder bonds (backbone.getD 0 0) (backbone.getD 1 0) =
          BondOrder.triple
        then ((1 : ℝ), (0 : ℝ))
        else (Real.cos (π / 6), Real.sin (π / 6)))) ∧
    norm2 (lookupCoord atoms (backboneSeed atoms bonds backbone).coords
        (backbone.getD 1 0) -
      lookupCoord atoms (backboneSeed atoms bonds backbone).coords
        (backbone.getD 0 0)) = 1 := by
  have hd := backboneSeed_displacement atoms bonds backbone hne h0 h1
  refine ⟨hd, ?_⟩
  rw [hd]
  exact norm2_seed_vector _

theorem seed_step_w :
    (lookupCoord pathGraph3.atoms
        (backboneSeed pathGraph3.atoms pathGraph3.bonds [0, 1, 2]).coords
        (([0, 1, 2] : List AtomId).getD 1 0) -
      lookupCoord pathGraph3.atoms
        (backboneSeed pathGraph3.atoms pathGraph3.bonds [0, 1, 2]).coords
        (([0, 1, 2] : List AtomId).getD 0 0) =
      (if bondOrder pathGraph3.bonds (([0, 1, 2] : List AtomId).getD 0 0)
          (([0, 1, 2] : List AtomId).getD 1 0) = BondOrder.triple
        then ((1 : ℝ), (0 : ℝ))
        else (Real.cos (π / 6), Real.sin (π / 6)))) ∧
    norm2 (lookupCoord pathGraph3.atoms
        (backboneSeed pathGraph3.atoms pathGraph3.bonds [0, 1, 2]).coords
        (([0, 1, 2] : List AtomId).getD 1 0) -
      lookupCoord pathGraph3.atoms
        (backboneSeed pathGraph3.atoms pathGraph3.bonds [0, 1, 2]).coords
        (([0, 1, 2] : List AtomId).getD 0 0)) = 1 :=
  seed_step_spec pathGraph3.atoms pathGraph3.bonds [0, 1, 2] (by decide)
    (by decide) (by decide)

/-- The original reading — `(1,0)` rotated by `−30°`, towards negative `y` —
is refuted on a single-bonded pair: the seed displacement's `y` component is
`sin (π/6) = +1/2`, whereas the claimed clockwise turn of `(1,0)` by `π/6`
has `y` component `−1/2`. -/
theorem seed_step_cex :
    (lookupCoord pathGraph3.atoms
        (backboneSeed pathGraph3.atoms pathGraph3.bonds [0, 1, 2]).coords
        (([0, 1, 2] : List AtomId).getD 1 0) -
      lookupCoord pathGraph3.atoms
        (backboneSeed pathGraph3.atoms pathGraph3.bonds [0, 1, 2]).coords
        (([0, 1, 2] : List AtomId).getD 0 0) =
      (Real.cos (π / 6), Real.sin (π / 6))) ∧
    Real.sin (π / 6) = 1 / 2 ∧
    (rotCW (π / 6) ((1 : ℝ), (0 : ℝ))).2 = -(1 / 2) ∧
    ((Real.cos (π / 6), Real.sin (π / 6)) : Vec2) ≠
      rotCW (π / 6) ((1 : ℝ), (0 : ℝ)) := by
  have hrot2 : (rotCW (π / 6) ((1 : ℝ), (0 : ℝ))).2 = -(1 / 2) := by
    unfold rotCW
    rw [show ((Real.cos (π/6) * 1 + Real.sin (π/6) * 0,
      -Real.sin (π/6) * 1 + Real.cos (π/6) * 0) : Vec2).2 =
      -Real.sin (π/6) * 1 + Real.cos (π/6) * 0 from rfl]
    rw [Real.sin_pi_div_six]
    ring
  have hd := backboneSeed_displacement pathGraph3.atoms pathGraph3.bonds
    [0, 1, 2] (by decide) (by decide) (by decide)
  rw [if_neg (by decide)] at hd
  refine ⟨hd, Real.sin_pi_div_six, hrot2, ?_⟩
  intro h
  have h2 : Real.sin (π / 6) = -(1 / 2) := by
    rw [← hrot2, ← h]
  rw [Real.sin_pi_div_six] at h2
  norm_num at h2

/-- C7: the label stage keeps a carbon's symbol exactly when its degree is AT
MOST one and it carries radical electrons or charge; every other carbon is
cleared, and a non-carbon atom always keeps its symbol. -/
theorem labelFor_spec (attrs : List (AtomId × AtomData)) (bonds : Adj)
    (a : AtomId) :
    ((attrOf attrs a).symbol = "C" →
      labelFor attrs bonds a =
        (if degree bonds a ≤ 1 ∧
            ((attrOf attrs a).radicalElectrons ≠ 0 ∨
              (attrOf attrs a).charge ≠ 0)
          then "C" else "")) ∧
    ((attrOf attrs a).symbol ≠ "C" →
      labelFor attrs bonds a = (attrOf attrs a).symbol) := by
  constructor
  · intro hC
    simp only [labelFor]
    split_ifs with h1 h2 h2
    · rcases h2 with ⟨hd, hrc⟩
      rcases h1.2 with hgt | ⟨hr, hc⟩
      · omega
      · rcases hrc with h | h
        · exact absurd hr h
        · exact absurd hc h
    · rfl
    · exact hC
    · exfalso
      have hx : ¬ (1 < degree bonds a ∨
          ((attrOf attrs a).radicalElectrons = 0 ∧
            (attrOf attrs a).charge = 0)) :=
        fun hx => h1 ⟨hC, hx⟩
      push_neg at hx
      exact h2 ⟨by omega, by tauto⟩
  · intro hC
    simp only [labelFor]
    split_ifs with h1
    · exact absurd h1.1 hC
    · rfl

/-- A lone carbon radical has no bond at all — degree `0`, not exactly `1` —
yet keeps its `"C"` label: the source's suppression test is degree at most
one, refuting the claim's "exactly one bond". -/
theorem labelFor_cex :
    (attrOf loneCAttrs 0).symbol = "C" ∧
    (attrOf loneCAttrs 0).radicalElectrons = 1 ∧
    degree loneCBonds 0 = 0 ∧
    ¬ degree loneCBonds 0 = 1 ∧
    labelFor loneCAttrs loneCBonds 0 = "C" := by
  decide

/-- C8: on a well-formed acyclic working graph, the substituent recursion of
`processFunctionalGroup` terminates — fuel equal to the atom count is never
exhausted — and every rotate-until-free loop performs at most its bound of
rotation attempts, every attempt before the last lands on an occupied slot,
and it stops either on a free slot or at the bound. -/
theorem substituentPlacement_spec (g : ChemGraph) (hwf : WF g)
    (hacyc : Acyclic g) (atom0 atom1 : AtomId) (h0 : atom0 ∈ g.atoms)
    (hadj : adjacent g.bonds atom0 atom1) (coordinates : Coords)
    (rotM : Vec2 → Vec2) (occ : Vec2 → Prop) [DecidablePred occ]
    (bound : Nat) (v : Vec2) :
    (processFunctionalGroup g.atoms g.bonds g.atoms.length atom0 atom1
        coordinates).isSome ∧
    (findSlot rotM occ bound v).2 ≤ bound ∧
    (∀ j, 1 ≤ j → j < (findSlot rotM occ bound v).2 → occ (rotM^[j] v)) ∧
    (¬ occ (findSlot rotM occ bound v).1 ∨
      (findSlot rotM occ bound v).2 = bound) := by
  obtain ⟨hle, _, hmin, hstop⟩ := findSlot_spec rotM occ bound v
  exact ⟨processFunctionalGroup_isSome g hwf hacyc atom0 atom1 h0 hadj
    coordinates, hle, hmin, hstop⟩

theorem substituentPlacement_w :
    (processFunctionalGroup pathGraph3.atoms pathGraph3.bonds
        pathGraph3.atoms.length 0 1 []).isSome ∧
    (findSlot (rotCCW π) (isOccupied pathGraph3.atoms pathGraph3.bonds [] 1)
        2 ((1 : ℝ), (0 : ℝ))).2 ≤ 2 ∧
    (∀ j, 1 ≤ j →
      j < (findSlot (rotCCW π)
        (isOccupied pathGraph3.atoms pathGraph3.bonds [] 1)
        2 ((1 : ℝ), (0 : ℝ))).2 →
      isOccupied pathGraph3.atoms pathGraph3.bonds [] 1
        ((rotCCW π)^[j] ((1 : ℝ), (0 : ℝ)))) ∧
    (¬ isOccupied pathGraph3.atoms pathGraph3.bonds [] 1
        ((findSlot (rotCCW π)
          (isOccupied pathGraph3.atoms pathGraph3.bonds [] 1)
          2 ((1 : ℝ), (0 : ℝ))).1) ∨
      (findSlot (rotCCW π)
        (isOccupied pathGraph3.atoms pathGraph3.bonds [] 1)
        2 ((1 : ℝ), (0 : ℝ))).2 = 2) :=
  substituentPlacement_spec pathGraph3 (by decide)
    (acyclic_of_cycleFree pathGraph3 (by decide) (by decide)) 0 1 (by decide)
    (by decide) [] (rotCCW π)
    (isOccupied pathGraph3.atoms pathGraph3.bonds [] 1) 2 ((1 : ℝ), (0 : ℝ))

theorem renderOrientation_terminal_left_w :
    renderOrientation "N" 0 [((0 : ℝ), (0 : ℝ)), ((1 : ℝ), (0 : ℝ))] [0, 1]
      twoAtomBonds = "l" :=
  renderOrientation_terminal_left "N" 0
    [((0 : ℝ), (0 : ℝ)), ((1 : ℝ), (0 : ℝ))] [0, 1] twoAtomBonds
    (by decide) (by decide) rfl rfl

/-- A chain `0 - 1 - 2 - 3` whose interior atom `2` carries five further
terminal atoms, giving it degree 7. -/
def star7Graph : ChemGraph :=
  ⟨[0, 1, 2, 3, 4, 5, 6, 7, 8],
   [(0, [(1, BondOrder.single)]),
    (1, [(0, BondOrder.single), (2, BondOrder.single)]),
    (2, [(1, BondOrder.single), (3, BondOrder.single), (4, BondOrder.single),
         (5, BondOrder.single), (6, BondOrder.single), (7, BondOrder.single),
         (8, BondOrder.single)]),
    (3, [(2, BondOrder.single)]),
    (4, [(2, BondOrder.single)]),
    (5, [(2, BondOrder.single)]),
    (6, [(2, BondOrder.single)]),
    (7, [(2, BondOrder.single)]),
    (8, [(2, BondOrder.single)])]⟩

/-- C10: a fresh turn angle exists at a step iff the pivot's degree is
between 2 and 6, but the whole backbone placement is undefined only when the
FIRST pivot `backbone[1]` is out of range — only there the function-scoped
`angle` variable is still unbound; at every later step an out-of-range pivot
silently reuses the previous iteration's stale angle and the placement
proceeds. -/
theorem backboneTurn_total_iff (atoms : List AtomId) (bonds : Adj)
    (backbone : List AtomId) (d : Nat) (b0 b : BondOrder) :
    ((turnAngle d b0 b).isSome ↔ (2 ≤ d ∧ d ≤ 6)) ∧
    ((placeBackbone atoms bonds backbone).isSome ↔
      (backbone.length ≤ 2 ∨
        (2 ≤ degree bonds (backbone.getD 1 0) ∧
          degree bonds (backbone.getD 1 0) ≤ 6))) :=
  ⟨turnAngle_isSome_iff d b0 b, placeBackbone_isSome_iff atoms bonds backbone⟩

/-- The original universal reading — any interior atom of degree 7 or more
reaches a step whose placement is undefined — is refuted: here the backbone
is `[0,1,2,3]`, its interior atom `2` has degree 7 and no turn angle is
assigned at its step, yet the placement completes, reusing the angle bound
at the previous step (pivot `1`, degree 2). -/
theorem backboneTurn_cex :
    WF star7Graph ∧
    getBackbone star7Graph = [0, 1, 2, 3] ∧
    degree star7Graph.bonds (([0, 1, 2, 3] : List AtomId).getD 2 0) = 7 ∧
    ¬ (turnAngle (degree star7Graph.bonds
        (([0, 1, 2, 3] : List AtomId).getD 2 0))
        BondOrder.single BondOrder.single).isSome ∧
    (placeBackbone star7Graph.atoms star7Graph.bonds [0, 1, 2, 3]).isSome := by
  refine ⟨by decide, by decide, by decide, ?_, ?_⟩
  · rw [turnAngle_isSome_iff]
    decide
  · rw [placeBackbone_isSome_iff]
    right
    decide

end MoleculeDraw
